import Mathlib

/-!
Verification of the SPH fluid simulation core in `src/sim/SPH3d.h`
(namespaces `pbs::sph3d`, classes `Grid` and `SPH`).

The C++ code is shallowly embedded: `float` arithmetic is modelled as exact
arithmetic (ℚ for the spatial grid and collision code, which use only field
operations, comparisons and `floor`; ℝ for the kernel/force code, which also
uses square roots and for which normalization is stated with real integrals),
`std::vector` as `List`, `size_t`/`uint32_t` indices as `Nat`/`Int` with
explicit range reasoning, and the in-place mutation in `Grid::update`,
`SPH::computeForces` and the collision handling as explicit state passing.
-/

open Real

namespace SPH3d

/-! ## Definitions: the shallow embedding of the source -/

/-- 3-component vector (the `Vector3f` / `Vector3i` of `core/Vector.h`,
treated as an already-correct utility: componentwise arithmetic, dot
product, squared norm). -/
structure V3 (α : Type) where
  x : α
  y : α
  z : α
  deriving DecidableEq, Repr

namespace V3

variable {α : Type}

instance [Add α] : Add (V3 α) := ⟨fun a b => ⟨a.x + b.x, a.y + b.y, a.z + b.z⟩⟩

instance [Sub α] : Sub (V3 α) := ⟨fun a b => ⟨a.x - b.x, a.y - b.y, a.z - b.z⟩⟩

instance [Neg α] : Neg (V3 α) := ⟨fun a => ⟨-a.x, -a.y, -a.z⟩⟩

instance [Mul α] : SMul α (V3 α) := ⟨fun s a => ⟨s * a.x, s * a.y, s * a.z⟩⟩

instance [Zero α] : Zero (V3 α) := ⟨⟨0, 0, 0⟩⟩

instance [Zero α] : Inhabited (V3 α) := ⟨0⟩

/-- Dot product. -/
def dot [Mul α] [Add α] (a b : V3 α) : α := a.x * b.x + a.y * b.y + a.z * b.z

/-- Squared norm (`squaredNorm` in the C++ code). -/
def normSq [Mul α] [Add α] (a : V3 α) : α := a.x * a.x + a.y * a.y + a.z * a.z

end V3

/-! ## The spatial grid (`class Grid`)

`Grid::init` stores the domain bounds and cell size, sets
`_invCellSize = 1/cellSize` and a per-axis cell count `_size`
(`nextPowerOfTwo(⌊extent/cellSize⌋+1)`, hence always ≥ 1).  The theorems
below take the stored fields as given and assume `1 ≤ size` per axis where
needed, exactly what `init` establishes. -/

/-- The state of `pbs::sph3d::Grid` relevant to indexing and lookup:
`_bounds.min`, `_invCellSize` and `_size`. -/
structure Grid where
  boundsMin : V3 ℚ
  invCellSize : ℚ
  size : V3 ℤ

namespace Grid

/-- `Grid::index`: `floor((pos - _bounds.min) * _invCellSize)` per axis. -/
def index (g : Grid) (p : V3 ℚ) : V3 ℤ :=
  ⟨⌊(p.x - g.boundsMin.x) * g.invCellSize⌋,
   ⌊(p.y - g.boundsMin.y) * g.invCellSize⌋,
   ⌊(p.z - g.boundsMin.z) * g.invCellSize⌋⟩

/-- Linearization of an integer cell coordinate:
`i.z * (size.x * size.y) + i.y * size.x + i.x` (used by both
`Grid::indexLinear` and the cell loop of `Grid::lookup`). -/
def cellLinear (g : Grid) (c : V3 ℤ) : ℤ :=
  c.z * (g.size.x * g.size.y) + c.y * g.size.x + c.x

/-- `Grid::indexLinear`: the linear cell index of a raw position; no
clamping of any kind is applied. -/
def indexLinear (g : Grid) (p : V3 ℚ) : ℤ :=
  g.cellLinear (g.index p)

/-- Per-axis cell coordinate validity: each component lies in `[0, size-1]`. -/
def inRange (g : Grid) (c : V3 ℤ) : Prop :=
  0 ≤ c.x ∧ c.x < g.size.x ∧ 0 ≤ c.y ∧ c.y < g.size.y ∧ 0 ≤ c.z ∧ c.z < g.size.z

instance (g : Grid) (c : V3 ℤ) : Decidable (g.inRange c) := by
  unfold inRange; infer_instance

/-- The inclusive integer range `[a, b]` as a list (the iteration space of a
C++ loop `for (v = a; v <= b; ++v)`; empty when `b < a`). -/
def intRange (a b : ℤ) : List ℤ :=
  (List.range (b + 1 - a).toNat).map (fun (k : ℕ) => a + (k : ℤ))

/-- `Grid::lookup`, cell enumeration part: the query box
`[pos-radius, pos+radius]` is mapped to cell coordinates, the lower corner
clamped below at `0` (`cwiseMax(Vector3i(0))`), the upper corner clamped
above at `size - 1` (`cwiseMin(_size - Vector3i(1))`), and all cells of the
clamped box are visited in `z`/`y`/`x` loop order. -/
def lookupCells (g : Grid) (pos : V3 ℚ) (radius : ℚ) : List (V3 ℤ) :=
  let mn := g.index (pos - ⟨radius, radius, radius⟩)
  let mx := g.index (pos + ⟨radius, radius, radius⟩)
  let lo : V3 ℤ := ⟨max mn.x 0, max mn.y 0, max mn.z 0⟩
  let hi : V3 ℤ := ⟨min mx.x (g.size.x - 1), min mx.y (g.size.y - 1), min mx.z (g.size.z - 1)⟩
  (intRange lo.z hi.z).flatMap (fun z =>
    (intRange lo.y hi.y).flatMap (fun y =>
      (intRange lo.x hi.x).map (fun x => ⟨x, y, z⟩)))

/-- `Grid::lookup`, particle enumeration part: for each visited cell with
linear index `i`, the visitor is invoked on every slot
`j ∈ [_cellOffset[i], _cellOffset[i+1])`.  `offL` is the `_cellOffset`
array. -/
def lookupSlots (g : Grid) (offL : List ℕ) (pos : V3 ℚ) (radius : ℚ) : List ℕ :=
  (lookupCells g pos radius).flatMap (fun c =>
    let i := (g.cellLinear c).toNat
    (List.range (offL.getD (i + 1) 0 - offL.getD i 0)).map (fun k => offL.getD i 0 + k))

end Grid

/-! ## `Grid::update`: the in-place counting sort

`Grid::update` computes each particle's linear cell index, counts particles
per cell, builds the prefix-sum offset array `_cellOffset` (length
`cellCount+1`, final entry = total), and then reorders the `indices`
array in place, emitting a `swap(i, j)` callback for every swap so the
caller can permute its co-indexed attribute arrays identically.  The
while-loop has no intrinsic bound in the source; it is embedded with an
explicit swap budget (`fuel`), and the termination theorem shows a budget
of `N` swaps always suffices. -/

/-- Swap the entries at positions `i` and `j` of a list (`std::swap` on two
vector elements; out-of-range positions leave the list unchanged, matching
the fact that the C++ code only ever swaps in-range slots). -/
def swapL {α : Type} [Inhabited α] (l : List α) (i j : ℕ) : List α :=
  (l.set i (l.getD j default)).set j (l.getD i default)

/-- Replay a recorded sequence of swap callbacks on a co-indexed array
(this is what `SPH::update`'s swap lambda does to `_positions` and
`_velocities`). -/
def applySwaps {α : Type} [Inhabited α] (sws : List (ℕ × ℕ)) (l : List α) : List α :=
  sws.foldl (fun l' s => swapL l' s.1 s.2) l

/-- Counting pass of `Grid::update`: for each particle, increment the count
of its cell (`++cellCount[index]`). -/
def bumpCounts (idx : List ℕ) (counts : List ℕ) : List ℕ :=
  idx.foldl (fun cs c => cs.set c (cs.getD c 0 + 1)) counts

/-- The per-cell particle counts (`cellCount` after the first loop of
`Grid::update`), starting from `m` zero entries. -/
def cellCounts (m : ℕ) (idx : List ℕ) : List ℕ :=
  bumpCounts idx (List.replicate m 0)

/-- Prefix-sum pass: running totals of the counts, with the grand total
appended (`_cellOffset[i] = index; index += cellCount[i]` and finally
`_cellOffset.back() = index`). -/
def prefixSums : List ℕ → ℕ → List ℕ
  | [], acc => [acc]
  | c :: cs, acc => acc :: prefixSums cs (acc + c)

/-- The `_cellOffset` array built by `Grid::update`. -/
def cellOffset (m : ℕ) (idx : List ℕ) : List ℕ :=
  prefixSums (cellCounts m idx) 0

/-- State of the sorting loop of `Grid::update`: the `indices` array, the
`cellIndex` array (next free slot per cell) and the swaps emitted so far. -/
structure SortSt where
  ind : List ℕ
  cix : List ℕ
  sws : List (ℕ × ℕ)
  deriving Repr

/-- The while-loop guard of the sorting loop:
`i >= cellIndex[indices[i]] || i < _cellOffset[indices[i]]`. -/
def sortCond (offL : List ℕ) (i : ℕ) (st : SortSt) : Prop :=
  st.cix.getD (st.ind.getD i 0) 0 ≤ i ∨ i < offL.getD (st.ind.getD i 0) 0

instance (offL : List ℕ) (i : ℕ) (st : SortSt) : Decidable (sortCond offL i st) := by
  unfold sortCond; infer_instance

/-- One iteration of the while-loop body:
`j = cellIndex[indices[i]]++; std::swap(indices[i], indices[j]); swap(i, j)`. -/
def sortStep (i : ℕ) (st : SortSt) : SortSt :=
  let c := st.ind.getD i 0
  let j := st.cix.getD c 0
  { ind := swapL st.ind i j, cix := st.cix.set c (j + 1), sws := st.sws ++ [(i, j)] }

/-- The inner while-loop for particle slot `i`, with an explicit swap budget.
Returns the state and the unused budget, or `none` if the budget is
exhausted while the guard still holds. -/
def sortInner (offL : List ℕ) (i : ℕ) : ℕ → SortSt → Option (SortSt × ℕ)
  | 0, st => if sortCond offL i st then none else some (st, 0)
  | fuel + 1, st =>
    if sortCond offL i st then sortInner offL i fuel (sortStep i st)
    else some (st, fuel + 1)

/-- The outer `for` loop of the sorting pass over the given slot order. -/
def sortOuter (offL : List ℕ) : List ℕ → ℕ → SortSt → Option SortSt
  | [], _, st => some st
  | i :: is, fuel, st =>
    match sortInner offL i fuel st with
    | none => none
    | some (st', fuel') => sortOuter offL is fuel' st'

/-- `Grid::update` on the precomputed linear cell indices `idx` of the
particles (`m` = number of cells): counting pass, offset pass, then the
in-place sort with a swap budget of `idx.length`.  Returns the final
`indices` array, the `_cellOffset` array and the emitted swap sequence.
The initial `cellIndex` array holds the same running totals as
`_cellOffset[0..m)`. -/
def gridUpdate (m : ℕ) (idx : List ℕ) : Option (List ℕ × List ℕ × List (ℕ × ℕ)) :=
  let offL := cellOffset m idx
  let st0 : SortSt := { ind := idx, cix := offL.take m, sws := [] }
  (sortOuter offL (List.range idx.length) idx.length st0).map
    (fun st => (st.ind, offL, st.sws))

/-! ### The offset array: characterization of the counting and prefix-sum
passes -/

/-- `off idx c` = number of particles whose cell index is `< c`; this is the
value `_cellOffset[c]` holds after the prefix-sum pass. -/
def off (idx : List ℕ) (c : ℕ) : ℕ := idx.countP (fun x => decide (x < c))

/-! ### The sorting-loop invariant

`SInv m idx i st` holds before processing slot `i` of the outer loop of
the sorting pass of `Grid::update` on initial cell indices `idx` with `m`
cells: lengths are preserved, the current `indices` array is a permutation
of the initial one, each cell's fill pointer `cellIndex[c]` lies in
`[off c, off (c+1)]`, the slots `[off c, cellIndex[c])` are already filled
with cell-`c` particles, all slots `< i` are finalized, and the recorded
swaps replay to the current array and stay in range. -/

structure SInv (m : ℕ) (idx : List ℕ) (i : ℕ) (st : SortSt) : Prop where
  hlen : st.ind.length = idx.length
  hclen : st.cix.length = m
  hperm : st.ind.Perm idx
  hlow : ∀ c, c < m → off idx c ≤ st.cix.getD c 0
  hhigh : ∀ c, c < m → st.cix.getD c 0 ≤ off idx (c + 1)
  hplaced : ∀ c, c < m → ∀ k, off idx c ≤ k → k < st.cix.getD c 0 →
    st.ind.getD k 0 = c
  hfin : ∀ k, k < i → off idx (st.ind.getD k 0) ≤ k ∧
    k < st.cix.getD (st.ind.getD k 0) 0
  happ : applySwaps st.sws idx = st.ind
  hsb : ∀ s ∈ st.sws, s.1 < idx.length ∧ s.2 < idx.length

/-- Total number of already-placed slots: the sorting loop's progress
measure.  Each swap places one particle for good, so this increases by one
per swap and is bounded by `N`. -/
def placed (m : ℕ) (idx : List ℕ) (st : SortSt) : ℕ :=
  ∑ c ∈ Finset.range m, (st.cix.getD c 0 - off idx c)

/-! ## C1: boundary collisions (`SPH::computeCollisions` + the handler in
`SPH::update`)

The handler invoked from `SPH::update` is
`_positions[i] += n * d; _velocities[i] -= (1 + c) * _velocities[i].dot(n) * n`
with `c = 0.5`.  Inside `computeCollisions`, `p` is a *reference* into
`_positions`, so each of the six face checks sees the position as already
modified by the previous handler calls for the same particle.  The loop
runs `for (size_t i = 0; i < _positions.size() - 1; ++i)` — note the `- 1`:
the last particle is never examined. -/

/-- The collision handler of `SPH::update` applied once with face normal `n`
and penetration depth `d` (restitution `c = 0.5`). -/
def collideResponse (p v : V3 ℚ) (n : V3 ℚ) (d : ℚ) : V3 ℚ × V3 ℚ :=
  (p + d • n, v - ((1 + 1/2) * v.dot n) • n)

/-- The six face checks of `SPH::computeCollisions` for one particle, in
source order (x-min, x-max, y-min, y-max, z-min, z-max), re-reading the
(reference) position after each handler call. -/
def collideParticle (bmin bmax : V3 ℚ) (pv : V3 ℚ × V3 ℚ) : V3 ℚ × V3 ℚ :=
  let s1 := if pv.1.x < bmin.x then collideResponse pv.1 pv.2 ⟨1, 0, 0⟩ (bmin.x - pv.1.x) else pv
  let s2 := if s1.1.x > bmax.x then collideResponse s1.1 s1.2 ⟨-1, 0, 0⟩ (s1.1.x - bmax.x) else s1
  let s3 := if s2.1.y < bmin.y then collideResponse s2.1 s2.2 ⟨0, 1, 0⟩ (bmin.y - s2.1.y) else s2
  let s4 := if s3.1.y > bmax.y then collideResponse s3.1 s3.2 ⟨0, -1, 0⟩ (s3.1.y - bmax.y) else s3
  let s5 := if s4.1.z < bmin.z then collideResponse s4.1 s4.2 ⟨0, 0, 1⟩ (bmin.z - s4.1.z) else s4
  let s6 := if s5.1.z > bmax.z then collideResponse s5.1 s5.2 ⟨0, 0, -1⟩ (s5.1.z - bmax.z) else s5
  s6

/-- One `computeCollisions` pass as invoked from `SPH::update`: the loop
bound is `i < _positions.size() - 1`, taken verbatim from the source. -/
def collisionPass (bmin bmax : V3 ℚ) (ps vs : List (V3 ℚ)) :
    List (V3 ℚ) × List (V3 ℚ) :=
  (List.range (ps.length - 1)).foldl
    (fun a i =>
      let r := collideParticle bmin bmax (a.1.getD i default, a.2.getD i default)
      (a.1.set i r.1, a.2.set i r.2))
    (ps, vs)

/-! ## The smoothing kernels (`struct SPH::Kernel`)

Translated from `Kernel::init` and the kernel evaluation functions, with
`float` replaced by ℝ and `M_PI` by `Real.pi`.  The kernels are split into
a constant prefactor (set in `init`) and a variable shape part, exactly as
in the source. -/

noncomputable section RealModel

/-- `sqr` from `core/Common.h`. -/
def sqr {α : Type} [Mul α] (x : α) : α := x * x

/-- `cube` from `core/Common.h`. -/
def cube {α : Type} [Mul α] (x : α) : α := x * x * x

/-- The fields of `struct SPH::Kernel`. -/
structure Kernel where
  h : ℝ
  h2 : ℝ
  halfh : ℝ
  poly6Constant : ℝ
  poly6GradConstant : ℝ
  poly6LaplaceConstant : ℝ
  spikyConstant : ℝ
  spikyGradConstant : ℝ
  spikyLaplaceConstant : ℝ
  viscosityLaplaceConstant : ℝ
  surfaceTensionConstant : ℝ
  surfaceTensionOffset : ℝ

end RealModel

noncomputable section RealModel

namespace Kernel

/-- `Kernel::init(h)`: all derived quantities and normalization constants,
verbatim from the source (in particular `poly6Constant = 365/(64·π·h⁹)`,
with the literal `365` as written in the code). -/
def init (h_ : ℝ) : Kernel where
  h := h_
  h2 := sqr h_
  halfh := 1/2 * h_
  poly6Constant := 365 / (64 * π * h_ ^ (9 : ℕ))
  poly6GradConstant := -945 / (32 * π * h_ ^ (9 : ℕ))
  poly6LaplaceConstant := -945 / (32 * π * h_ ^ (9 : ℕ))
  spikyConstant := 15 / (π * h_ ^ (6 : ℕ))
  spikyGradConstant := -45 / (π * h_ ^ (6 : ℕ))
  spikyLaplaceConstant := -90 / (π * h_ ^ (6 : ℕ))
  viscosityLaplaceConstant := 45 / (π * h_ ^ (6 : ℕ))
  surfaceTensionConstant := 32 / (π * h_ ^ (9 : ℕ))
  surfaceTensionOffset := -(h_ ^ (6 : ℕ)) / 64

/-- `Kernel::poly6(r2) = cube(h2 - r2)` (shape part of the density kernel). -/
def poly6 (k : Kernel) (r2 : ℝ) : ℝ := cube (k.h2 - r2)

/-- `Kernel::poly6Grad(r, r2) = sqr(h2 - r2) * r`. -/
def poly6Grad (k : Kernel) (r : V3 ℝ) (r2 : ℝ) : V3 ℝ := sqr (k.h2 - r2) • r

/-- `Kernel::spikyGrad(r, rn) = sqr(h - rn) * r * (1/rn)`. -/
def spikyGrad (k : Kernel) (r : V3 ℝ) (rn : ℝ) : V3 ℝ :=
  (sqr (k.h - rn) * (1 / rn)) • r

/-- `Kernel::viscosityLaplace(rn) = h - rn`. -/
def viscosityLaplace (k : Kernel) (rn : ℝ) : ℝ := k.h - rn

/-- `Kernel::surfaceTension(rn)`: the two-piece cohesion kernel of [3]. -/
def surfaceTension (k : Kernel) (rn : ℝ) : ℝ :=
  if rn < k.halfh then 2 * cube (k.h - rn) * cube rn + k.surfaceTensionOffset
  else cube (k.h - rn) * cube rn

end Kernel

end RealModel

noncomputable section RealModel

/-! ## The solver state and the force pass (`SPH::computeForces`)

The per-particle arrays are modelled as lists over `V3 ℝ` / ℝ; the
`tbb::parallel_for` in `SPH::iterate` is modelled by its sequential
fallback (`#else` branch of `USE_TBB`), i.e. the loop body is applied to
`i = 0, 1, …, N-1` in order.  The grid candidate lookup
(`_grid.lookup(_positions[i], _h, …)`) is abstracted as a function
`lookup : V3 ℝ → List ℕ` giving the candidate slots visited for a query
position. -/

/-- `struct SPH::Settings`: the mutable solver settings. -/
structure Settings where
  stiffness : ℝ
  viscosity : ℝ
  gravity : V3 ℝ

/-- The solver constants read by `SPH::computeForces`:
`_particleMass`, `_particleMass2`, `_restDensity` and `_kernel`. -/
structure SPHParams where
  particleMass : ℝ
  particleMass2 : ℝ
  restDensity : ℝ
  kernel : Kernel

/-- The per-particle buffers of `SPH` (`_positions`, `_velocities`,
`_normals`, `_forces`, `_densities`, `_pressures`). -/
structure SPHState where
  positions : List (V3 ℝ)
  velocities : List (V3 ℝ)
  normals : List (V3 ℝ)
  forces : List (V3 ℝ)
  densities : List ℝ
  pressures : List ℝ

/-- The four per-particle force accumulators of `SPH::computeForces`
(`force` is explicitly zero-initialized in the source; the other three are
default-constructed `Vector3f`s, modelled as zero per the spec's
description of them as accumulated sums). -/
structure ForceAcc where
  force : V3 ℝ
  forceViscosity : V3 ℝ
  forceCohesion : V3 ℝ
  forceCurvature : V3 ℝ

/-- The pairwise pressure-force term of `SPH::computeForces`
(`_particleMass2 * (pressure_i / sqr(density_i) + pressure_j /
sqr(density_j)) * _kernel.spikyGradConstant * _kernel.spikyGrad(r, rn)`,
with `rn = sqrt(r2) = sqrt(|r|²)`); the term is subtracted from the
accumulated force. -/
def pressurePairTerm (P : SPHParams) (density_i pressure_i density_j pressure_j : ℝ)
    (r : V3 ℝ) : V3 ℝ :=
  (P.particleMass2 * (pressure_i / sqr density_i + pressure_j / sqr density_j) *
    P.kernel.spikyGradConstant) • P.kernel.spikyGrad r (Real.sqrt (V3.normSq r))

/-- The body of the candidate lambda in `SPH::computeForces` for particle
`i` and candidate slot `j`: the `i != j` guard, the
`r2 < h2 && r2 > 0.00001f` filter with the pressure / viscosity /
cohesion / curvature accumulations, and the `else if (r2 == 0)` positional
nudge `_positions[j] += Vector3f(1e-5f)`.  The mutable state is the
positions array paired with the accumulators. -/
def forceStep (P : SPHParams) (vel nor : List (V3 ℝ)) (den pre : List ℝ) (i : ℕ)
    (s : List (V3 ℝ) × ForceAcc) (j : ℕ) : List (V3 ℝ) × ForceAcc :=
  if i ≠ j then
    let r := s.1.getD i default - s.1.getD j default
    let r2 := V3.normSq r
    if r2 < P.kernel.h2 ∧ r2 > 1/100000 then
      let rn := Real.sqrt r2
      let density_i := den.getD i 0
      let density_j := den.getD j 0
      let correctionFactor := 2 * P.restDensity / (density_i + density_j)
      (s.1,
        { force := s.2.force -
            pressurePairTerm P density_i (pre.getD i 0) density_j (pre.getD j 0) r
          forceViscosity :=
            if density_j > 1/10000 then
              s.2.forceViscosity -
                (P.kernel.viscosityLaplace rn / density_j) •
                  (vel.getD i default - vel.getD j default)
            else s.2.forceViscosity
          forceCohesion := s.2.forceCohesion +
            (correctionFactor * P.kernel.surfaceTension rn) • r
          forceCurvature := s.2.forceCurvature +
            correctionFactor • (nor.getD i default - nor.getD j default) })
    else if r2 = 0 then
      (s.1.set j (s.1.getD j default + ⟨1/100000, 1/100000, 1/100000⟩), s.2)
    else s
  else s

/-- One iteration of the outer loop of `SPH::computeForces` (particle `i`):
fold the candidate lambda over the slots the grid lookup visits, then apply
the constant prefactors — note the *local* `const float viscosity =
0.0001f` and `const float surfaceTension = 1.f` of the source, which
shadow any solver setting — add gravity, and store the force. -/
def computeForcesOne (P : SPHParams) (S : Settings) (lookup : V3 ℝ → List ℕ)
    (vel nor : List (V3 ℝ)) (den pre : List ℝ)
    (ps fs : List (V3 ℝ)) (i : ℕ) : List (V3 ℝ) × List (V3 ℝ) :=
  let cand := lookup (ps.getD i default)
  let r := cand.foldl (forceStep P vel nor den pre i) (ps, ⟨0, 0, 0, 0⟩)
  let forceViscosity :=
    (1/10000 * P.particleMass * P.kernel.viscosityLaplaceConstant) • r.2.forceViscosity
  let forceCohesion :=
    (1 * P.particleMass2 * P.kernel.surfaceTensionConstant) • r.2.forceCohesion
  let forceCurvature := (1 * P.particleMass) • r.2.forceCurvature
  let force := r.2.force + forceCohesion + forceCurvature + forceViscosity +
    P.particleMass • S.gravity
  (r.1, fs.set i force)

/-- `SPH::computeForces`: the loop over all particles, threading the
positions array (mutated by the nudge) and the forces array. -/
def computeForces (P : SPHParams) (S : Settings) (lookup : V3 ℝ → List ℕ)
    (st : SPHState) : SPHState :=
  let r := (List.range st.positions.length).foldl
    (fun a i =>
      computeForcesOne P S lookup st.velocities st.normals st.densities st.pressures
        a.1 a.2 i)
    (st.positions, st.forces)
  { st with positions := r.1, forces := r.2 }

/-- Truncation toward zero (the rounding of `std::fmod`). -/
def truncR (x : ℝ) : ℤ := if 0 ≤ x then ⌊x⌋ else ⌈x⌉

/-- `std::fmod(a, b) = a - b * trunc(a / b)`. -/
def fmodR (a b : ℝ) : ℝ := a - b * (truncR (a / b) : ℝ)

/-- The settings preamble of `SPH::update`: the rotating-gravity schedule
`t = fmod(_t * 0.5, 4)` selecting one of four gravity vectors, followed by
the unconditional assignment `_settings.gravity = Vector3f(0.f, -9.81f,
0.f)` that overwrites it (both taken verbatim from the source). -/
def gravitySchedule (t : ℝ) (s : Settings) : Settings :=
  let tm := fmodR (t * (1/2)) 4
  let g1 : V3 ℝ :=
    if tm < 1 then ⟨0, -981/100, 0⟩
    else if tm < 2 then ⟨981/100, 0, 0⟩
    else if tm < 3 then ⟨0, 981/100, 0⟩
    else ⟨-981/100, 0, 0⟩
  let s1 : Settings := { s with gravity := g1 }
  { s1 with gravity := ⟨0, -981/100, 0⟩ }

/-- The settings dataflow of one `SPH::update` step into the force pass:
the settings preamble runs first, and of the intervening stages (grid
update, `computeDensity`, `computeNormals`) none reads or writes
`_settings`, so `computeForces` sees exactly the preamble's output
settings. -/
def updateForcePass (t : ℝ) (P : SPHParams) (s : Settings)
    (lookup : V3 ℝ → List ℕ) (st : SPHState) : SPHState :=
  computeForces P (gravitySchedule t s) lookup st

end RealModel

/-! ## Theorems -/

namespace V3

variable {α : Type}

@[simp] theorem add_def [Add α] (a b : V3 α) :
    a + b = ⟨a.x + b.x, a.y + b.y, a.z + b.z⟩ := rfl

@[simp] theorem sub_def [Sub α] (a b : V3 α) :
    a - b = ⟨a.x - b.x, a.y - b.y, a.z - b.z⟩ := rfl

@[simp] theorem neg_def [Neg α] (a : V3 α) : -a = ⟨-a.x, -a.y, -a.z⟩ := rfl

@[simp] theorem smul_def [Mul α] (s : α) (a : V3 α) :
    s • a = ⟨s * a.x, s * a.y, s * a.z⟩ := rfl

@[simp] theorem zero_def [Zero α] : (0 : V3 α) = ⟨0, 0, 0⟩ := rfl

@[simp] theorem zero_x [Zero α] : (0 : V3 α).x = 0 := rfl

@[simp] theorem zero_y [Zero α] : (0 : V3 α).y = 0 := rfl

@[simp] theorem zero_z [Zero α] : (0 : V3 α).z = 0 := rfl

theorem ext_iff (a b : V3 α) : a = b ↔ a.x = b.x ∧ a.y = b.y ∧ a.z = b.z := by
  cases a; cases b; simp

theorem normSq_eq_zero_iff (a : V3 ℝ) : normSq a = 0 ↔ a = 0 := by
  cases a with
  | mk ax ay az =>
    simp only [normSq, zero_def, ext_iff]
    constructor
    · intro h
      have hx : ax * ax + ay * ay + az * az = 0 := h
      have h1 : ax ^ 2 + ay ^ 2 + az ^ 2 = 0 := by nlinarith
      have hx0 : ax = 0 := by nlinarith [sq_nonneg ax, sq_nonneg ay, sq_nonneg az]
      have hy0 : ay = 0 := by nlinarith [sq_nonneg ax, sq_nonneg ay, sq_nonneg az]
      have hz0 : az = 0 := by nlinarith [sq_nonneg ax, sq_nonneg ay, sq_nonneg az]
      exact ⟨hx0, hy0, hz0⟩
    · rintro ⟨hx, hy, hz⟩
      simp [normSq, hx, hy, hz]

theorem normSq_neg_sub (a b : V3 ℝ) : normSq (b - a) = normSq (a - b) := by
  cases a; cases b; simp only [normSq, sub_def]; ring

end V3

namespace Grid

/-- A valid cell coordinate linearizes into `[0, size.x*size.y*size.z)`. -/
theorem cellLinear_lt (g : Grid) (c : V3 ℤ) (h : g.inRange c) :
    0 ≤ g.cellLinear c ∧ g.cellLinear c < g.size.x * g.size.y * g.size.z := by
  obtain ⟨hx0, hx1, hy0, hy1, hz0, hz1⟩ := h
  have hsx : 0 < g.size.x := lt_of_le_of_lt hx0 hx1
  have hsy : 0 < g.size.y := lt_of_le_of_lt hy0 hy1
  have hsz : 0 < g.size.z := lt_of_le_of_lt hz0 hz1
  unfold cellLinear
  constructor
  · have h1 : 0 ≤ c.z * (g.size.x * g.size.y) :=
      mul_nonneg hz0 (mul_nonneg hsx.le hsy.le)
    have h2 : 0 ≤ c.y * g.size.x := mul_nonneg hy0 hsx.le
    linarith
  · have h1 : c.z * (g.size.x * g.size.y) ≤ (g.size.z - 1) * (g.size.x * g.size.y) :=
      mul_le_mul_of_nonneg_right (by linarith) (mul_nonneg hsx.le hsy.le)
    have h2 : c.y * g.size.x ≤ (g.size.y - 1) * g.size.x :=
      mul_le_mul_of_nonneg_right (by linarith) hsx.le
    nlinarith

theorem mem_intRange {a b v : ℤ} (h : v ∈ intRange a b) : a ≤ v ∧ v ≤ b := by
  simp only [intRange, List.mem_map, List.mem_range] at h
  obtain ⟨k, hk, rfl⟩ := h
  constructor <;> omega

theorem intRange_eq_nil {a b : ℤ} (h : b < a) : intRange a b = [] := by
  unfold intRange
  have : (b + 1 - a).toNat = 0 := by omega
  simp [this]

theorem flatMap_eq_nil_of_forall {α β : Type} (l : List α) (f : α → List β)
    (h : ∀ a ∈ l, f a = []) : l.flatMap f = [] := by
  induction l with
  | nil => rfl
  | cons a l ih =>
    simp only [List.flatMap_cons, h a (List.mem_cons_self a l), List.nil_append]
    exact ih (fun b hb => h b (List.mem_cons_of_mem a hb))

end Grid

/-! ### List helper lemmas for the sort verification -/

theorem getD_set_self {α : Type} (l : List α) (i : ℕ) (v d : α) (h : i < l.length) :
    (l.set i v).getD i d = v := by
  rw [List.getD_eq_getElem _ d (by simpa using h), List.getElem_set]
  simp

theorem getD_set_ne {α : Type} (l : List α) (i c : ℕ) (v d : α) (hne : i ≠ c) :
    (l.set i v).getD c d = l.getD c d := by
  by_cases hc : c < l.length
  · rw [List.getD_eq_getElem _ d (by simpa using hc), List.getD_eq_getElem _ d hc,
      List.getElem_set]
    simp [hne]
  · rw [List.getD_eq_default _ d (by simpa using not_lt.mp hc),
      List.getD_eq_default _ d (not_lt.mp hc)]

theorem length_swapL {α : Type} [Inhabited α] (l : List α) (i j : ℕ) :
    (swapL l i j).length = l.length := by
  simp [swapL]

theorem getD_swapL_fst {α : Type} [Inhabited α] (l : List α) (i j : ℕ)
    (hi : i < l.length) (hj : j < l.length) :
    (swapL l i j).getD i default = if j = i then l.getD i default else l.getD j default := by
  unfold swapL
  by_cases hji : j = i
  · subst hji
    rw [getD_set_self _ _ _ _ (by simpa using hj)]
    simp
  · rw [getD_set_ne _ _ _ _ _ hji, getD_set_self _ _ _ _ hi, if_neg hji,
      List.getD_eq_getElem _ _ hj]

theorem getD_swapL_snd {α : Type} [Inhabited α] (l : List α) (i j : ℕ)
    (hj : j < l.length) :
    (swapL l i j).getD j default = l.getD i default := by
  unfold swapL
  rw [getD_set_self _ _ _ _ (by simpa using hj)]

theorem getD_swapL_other {α : Type} [Inhabited α] (l : List α) (i j k : ℕ)
    (hki : k ≠ i) (hkj : k ≠ j) :
    (swapL l i j).getD k default = l.getD k default := by
  unfold swapL
  rw [getD_set_ne _ _ _ _ _ (fun h => hkj h.symm), getD_set_ne _ _ _ _ _ (fun h => hki h.symm)]

theorem get_cons_set_perm {α : Type} :
    ∀ (xs : List α) (k : ℕ) (hk : k < xs.length) (x : α),
      (xs.get ⟨k, hk⟩ :: xs.set k x).Perm (x :: xs)
  | y :: ys, 0, _, x => by
    simpa using List.Perm.swap x y ys
  | y :: ys, k + 1, hk, x => by
    simp only [List.get_cons_succ, List.set_cons_succ]
    exact (List.Perm.swap y _ _).trans
      (((get_cons_set_perm ys k (by simpa using hk) x).cons y).trans
        (List.Perm.swap x y ys))

theorem set_set_perm {α : Type} :
    ∀ (l : List α) (i j : ℕ) (hi : i < l.length) (hj : j < l.length),
      ((l.set i (l.get ⟨j, hj⟩)).set j (l.get ⟨i, hi⟩)).Perm l
  | x :: xs, 0, 0, _, _ => by simp
  | x :: xs, 0, j' + 1, hi, hj => by
    simp only [List.get_cons_succ, List.get_cons_zero, List.set_cons_zero,
      List.set_cons_succ]
    exact get_cons_set_perm xs j' (by simpa using hj) x
  | x :: xs, i' + 1, 0, hi, hj => by
    simp only [List.get_cons_succ, List.get_cons_zero, List.set_cons_zero,
      List.set_cons_succ]
    exact get_cons_set_perm xs i' (by simpa using hi) x
  | x :: xs, i' + 1, j' + 1, hi, hj => by
    simp only [List.get_cons_succ, List.set_cons_succ]
    exact (set_set_perm xs i' j' (by simpa using hi) (by simpa using hj)).cons x

theorem swapL_perm {α : Type} [Inhabited α] (l : List α) (i j : ℕ)
    (hi : i < l.length) (hj : j < l.length) : (swapL l i j).Perm l := by
  unfold swapL
  rw [List.getD_eq_getElem _ _ hj, List.getD_eq_getElem _ _ hi]
  have h1 : l[j] = l.get ⟨j, hj⟩ := rfl
  have h2 : l[i] = l.get ⟨i, hi⟩ := rfl
  rw [h1, h2]
  exact set_set_perm l i j hi hj

theorem applySwaps_nil {α : Type} [Inhabited α] (l : List α) : applySwaps [] l = l := rfl

theorem applySwaps_append {α : Type} [Inhabited α] (s1 s2 : List (ℕ × ℕ)) (l : List α) :
    applySwaps (s1 ++ s2) l = applySwaps s2 (applySwaps s1 l) := by
  simp [applySwaps, List.foldl_append]

theorem applySwaps_cons {α : Type} [Inhabited α] (s : ℕ × ℕ) (sws : List (ℕ × ℕ))
    (l : List α) : applySwaps (s :: sws) l = applySwaps sws (swapL l s.1 s.2) := rfl

theorem length_applySwaps {α : Type} [Inhabited α] (sws : List (ℕ × ℕ)) :
    ∀ l : List α, (applySwaps sws l).length = l.length := by
  induction sws with
  | nil => intro l; rfl
  | cons s sws ih =>
    intro l
    rw [applySwaps_cons, ih, length_swapL]

theorem applySwaps_perm {α : Type} [Inhabited α] (sws : List (ℕ × ℕ)) :
    ∀ l : List α, (∀ s ∈ sws, s.1 < l.length ∧ s.2 < l.length) →
      (applySwaps sws l).Perm l := by
  induction sws with
  | nil => intro l _; rfl
  | cons s sws ih =>
    intro l hb
    obtain ⟨h1, h2⟩ := hb s (List.mem_cons_self s sws)
    rw [applySwaps_cons]
    refine ((ih (swapL l s.1 s.2) ?_).trans (swapL_perm l s.1 s.2 h1 h2))
    intro t ht
    rw [length_swapL]
    exact hb t (List.mem_cons_of_mem s ht)

theorem swapL_map {α β : Type} [Inhabited α] [Inhabited β] (f : α → β)
    (l : List α) (i j : ℕ) (hi : i < l.length) (hj : j < l.length) :
    swapL (l.map f) i j = (swapL l i j).map f := by
  unfold swapL
  have hg : ∀ k : ℕ, k < l.length → (l.map f).getD k default = f (l.getD k default) := by
    intro k hk
    rw [List.getD_eq_getElem _ _ (by simpa using hk), List.getD_eq_getElem _ _ hk,
      List.getElem_map]
  rw [hg j hj, hg i hi, List.map_set, List.map_set]

theorem applySwaps_map {α β : Type} [Inhabited α] [Inhabited β] (f : α → β)
    (sws : List (ℕ × ℕ)) :
    ∀ l : List α, (∀ s ∈ sws, s.1 < l.length ∧ s.2 < l.length) →
      applySwaps sws (l.map f) = (applySwaps sws l).map f := by
  induction sws with
  | nil => intro l _; rfl
  | cons s sws ih =>
    intro l hb
    obtain ⟨h1, h2⟩ := hb s (List.mem_cons_self s sws)
    rw [applySwaps_cons, applySwaps_cons, swapL_map f l s.1 s.2 h1 h2, ih]
    intro t ht
    rw [length_swapL]
    exact hb t (List.mem_cons_of_mem s ht)

theorem bumpCounts_length (idx : List ℕ) : ∀ cs : List ℕ,
    (bumpCounts idx cs).length = cs.length := by
  induction idx with
  | nil => intro cs; rfl
  | cons a idx ih =>
    intro cs
    show (bumpCounts idx (cs.set a (cs.getD a 0 + 1))).length = cs.length
    rw [ih, List.length_set]

theorem bumpCounts_getD (idx : List ℕ) : ∀ cs : List ℕ,
    (∀ x ∈ idx, x < cs.length) → ∀ c, c < cs.length →
      (bumpCounts idx cs).getD c 0 = cs.getD c 0 + idx.count c := by
  induction idx with
  | nil => intro cs _ c _; simp [bumpCounts]
  | cons a idx ih =>
    intro cs hpre c hc
    have ha : a < cs.length := hpre a (List.mem_cons_self a idx)
    have hrec := ih (cs.set a (cs.getD a 0 + 1))
      (by intro x hx; rw [List.length_set]; exact hpre x (List.mem_cons_of_mem a hx))
      c (by rwa [List.length_set])
    show (bumpCounts idx (cs.set a (cs.getD a 0 + 1))).getD c 0 = _
    rw [hrec, List.count_cons]
    by_cases hac : a = c
    · subst hac
      rw [getD_set_self _ _ _ _ ha]
      simp
      omega
    · rw [getD_set_ne _ _ _ _ _ hac]
      simp [hac]

theorem cellCounts_length (m : ℕ) (idx : List ℕ) : (cellCounts m idx).length = m := by
  rw [cellCounts, bumpCounts_length, List.length_replicate]

theorem cellCounts_getD (m : ℕ) (idx : List ℕ) (hpre : ∀ x ∈ idx, x < m)
    (c : ℕ) (hc : c < m) : (cellCounts m idx).getD c 0 = idx.count c := by
  rw [cellCounts, bumpCounts_getD idx (List.replicate m 0)
    (by simpa using hpre) c (by simpa using hc)]
  rw [List.getD_eq_getElem _ _ (by simpa using hc), List.getElem_replicate]
  omega

theorem prefixSums_length : ∀ (cs : List ℕ) (acc : ℕ),
    (prefixSums cs acc).length = cs.length + 1 := by
  intro cs
  induction cs with
  | nil => intro acc; rfl
  | cons a cs ih => intro acc; simp [prefixSums, ih]

theorem prefixSums_getD : ∀ (cs : List ℕ) (acc c : ℕ), c ≤ cs.length →
    (prefixSums cs acc).getD c 0 = acc + (cs.take c).sum := by
  intro cs
  induction cs with
  | nil =>
    intro acc c hc
    have hc0 : c = 0 := by simpa using hc
    subst hc0
    simp [prefixSums]
  | cons a cs ih =>
    intro acc c hc
    match c with
    | 0 => simp [prefixSums]
    | c + 1 =>
      show (prefixSums cs (acc + a)).getD c 0 = _
      rw [ih (acc + a) c (by simpa using hc)]
      simp [List.take_succ_cons]
      omega

theorem countP_lt_succ (idx : List ℕ) (c : ℕ) :
    idx.countP (fun x => decide (x < c + 1)) =
      idx.countP (fun x => decide (x < c)) + idx.count c := by
  induction idx with
  | nil => rfl
  | cons a idx ih =>
    rw [List.countP_cons, List.countP_cons, List.count_cons, ih]
    by_cases h1 : a < c
    · have h2 : a < c + 1 := by omega
      have h3 : ¬ a = c := by omega
      simp [h1, h2, h3]
      omega
    · by_cases h2 : a = c
      · subst h2
        simp [h1]
        omega
      · have h3 : ¬ a < c + 1 := by omega
        simp [h1, h2, h3]

theorem off_zero (idx : List ℕ) : off idx 0 = 0 := by
  rw [off, List.countP_eq_zero.mpr]
  intro a _
  simp

theorem off_succ (idx : List ℕ) (c : ℕ) : off idx (c + 1) = off idx c + idx.count c :=
  countP_lt_succ idx c

theorem off_mono (idx : List ℕ) {c c' : ℕ} (h : c ≤ c') : off idx c ≤ off idx c' := by
  apply List.countP_mono_left
  intro x _ hx
  simp only [decide_eq_true_eq] at hx ⊢
  omega

theorem off_le_length (idx : List ℕ) (c : ℕ) : off idx c ≤ idx.length :=
  List.countP_le_length _

theorem off_total (idx : List ℕ) (m : ℕ) (hpre : ∀ x ∈ idx, x < m) :
    off idx m = idx.length := by
  rw [off, List.countP_eq_length]
  intro a ha
  simpa using hpre a ha

theorem sum_take_cellCounts (m : ℕ) (idx : List ℕ) (hpre : ∀ x ∈ idx, x < m) :
    ∀ c, c ≤ m → ((cellCounts m idx).take c).sum = off idx c := by
  intro c
  induction c with
  | zero => intro _; simp [off_zero]
  | succ c ih =>
    intro hc
    have hcm : c < m := by omega
    have hlen : c < (cellCounts m idx).length := by rw [cellCounts_length]; exact hcm
    rw [List.sum_take_succ _ c hlen, ih (by omega), off_succ]
    congr 1
    rw [← cellCounts_getD m idx hpre c hcm, List.getD_eq_getElem _ _ hlen]

theorem cellOffset_length (m : ℕ) (idx : List ℕ) :
    (cellOffset m idx).length = m + 1 := by
  rw [cellOffset, prefixSums_length, cellCounts_length]

theorem cellOffset_getD (m : ℕ) (idx : List ℕ) (hpre : ∀ x ∈ idx, x < m)
    (c : ℕ) (hc : c ≤ m) : (cellOffset m idx).getD c 0 = off idx c := by
  rw [cellOffset, prefixSums_getD _ _ _ (by rw [cellCounts_length]; exact hc),
    sum_take_cellCounts m idx hpre c hc]
  omega

/-! ### Counting occurrences by position: the pigeonhole bound used by the
sorting loop -/

theorem count_eq_countP_range (l : List ℕ) (a : ℕ) :
    l.count a = (List.range l.length).countP (fun k => decide (l.getD k 0 = a)) := by
  induction l with
  | nil => rfl
  | cons x xs ih =>
    rw [List.count_cons, List.length_cons, List.range_succ_eq_map, List.countP_cons,
      List.countP_map]
    have he : ((fun k => decide ((x :: xs).getD k 0 = a)) ∘ Nat.succ) =
        fun k => decide (xs.getD k 0 = a) := by
      funext k
      simp [List.getD_cons_succ]
    rw [he, ← ih]
    by_cases h : x = a <;> simp [h]

theorem countP_or_split {γ : Type} (p q : γ → Bool) :
    ∀ l : List γ, (∀ x ∈ l, ¬(p x = true ∧ q x = true)) →
      l.countP (fun x => p x || q x) = l.countP p + l.countP q := by
  intro l
  induction l with
  | nil => intro _; rfl
  | cons x xs ih =>
    intro hd
    rw [List.countP_cons, List.countP_cons, List.countP_cons,
      ih (fun y hy => hd y (List.mem_cons_of_mem x hy))]
    have hx := hd x (List.mem_cons_self x xs)
    by_cases hp : p x = true
    · have hq : ¬ q x = true := fun hq => hx ⟨hp, hq⟩
      simp [hp, hq]
      omega
    · by_cases hq : q x = true
      · simp [hp, hq]
        omega
      · simp [hp, hq]

theorem countP_range_Ico : ∀ (n lo hi : ℕ), hi ≤ n →
    (List.range n).countP (fun k => decide (lo ≤ k ∧ k < hi)) = hi - lo := by
  intro n
  induction n with
  | zero =>
    intro lo hi h
    have : hi = 0 := by omega
    subst this
    simp
  | succ n ih =>
    intro lo hi h
    rw [List.range_succ, List.countP_append]
    by_cases hn : hi ≤ n
    · rw [ih lo hi hn]
      have : ¬(lo ≤ n ∧ n < hi) := by omega
      simp [this]
    · have hhi : hi = n + 1 := by omega
      subst hhi
      have he : (List.range n).countP (fun k => decide (lo ≤ k ∧ k < n + 1)) =
          (List.range n).countP (fun k => decide (lo ≤ k ∧ k < n)) := by
        apply List.countP_congr
        intro k hk
        have := List.mem_range.mp hk
        simp only [decide_eq_true_eq]
        omega
      rw [he, ih lo n le_rfl]
      by_cases hlo : lo ≤ n
      · simp [hlo]
        omega
      · have : ¬(lo ≤ n ∧ n < n + 1) := by omega
        simp only [List.countP_cons, List.countP_nil, this]
        simp [this]
        omega

theorem countP_range_single : ∀ (n i : ℕ), i < n →
    (List.range n).countP (fun k => decide (k = i)) = 1 := by
  intro n
  induction n with
  | zero => intro i h; omega
  | succ n ih =>
    intro i h
    rw [List.range_succ, List.countP_append]
    by_cases hi : i < n
    · rw [ih i hi]
      have : ¬ (n = i) := by omega
      simp [this]
    · have : i = n := by omega
      subst this
      rw [List.countP_eq_zero.mpr, Nat.zero_add]
      · simp
      · intro a ha
        have := List.mem_range.mp ha
        simp only [decide_eq_true_eq]
        omega

/-- Pigeonhole: if the slots of `[lo, hi)` all hold the value `c`, and a
further slot `i` outside that range also holds `c`, then `c` occurs at
least `hi - lo + 1` times in the list. -/
theorem count_lower_bound (l : List ℕ) (c lo hi i : ℕ)
    (hhi : hi ≤ l.length) (hil : i < l.length)
    (hrange : ∀ k, lo ≤ k → k < hi → l.getD k 0 = c)
    (hiv : l.getD i 0 = c) (hout : ¬(lo ≤ i ∧ i < hi)) :
    hi - lo + 1 ≤ l.count c := by
  rw [count_eq_countP_range]
  have hmono : (List.range l.length).countP
        (fun k => decide (lo ≤ k ∧ k < hi) || decide (k = i)) ≤
      (List.range l.length).countP (fun k => decide (l.getD k 0 = c)) := by
    apply List.countP_mono_left
    intro k _ hk
    simp only [Bool.or_eq_true, decide_eq_true_eq] at hk
    rcases hk with ⟨h1, h2⟩ | rfl
    · simp only [decide_eq_true_eq]
      exact hrange k h1 h2
    · simp only [decide_eq_true_eq]
      exact hiv
  have hsplit : (List.range l.length).countP
      (fun k => decide (lo ≤ k ∧ k < hi) || decide (k = i)) = (hi - lo) + 1 := by
    rw [countP_or_split _ _ _ ?_, countP_range_Ico _ _ _ hhi,
      countP_range_single _ _ hil]
    intro x _ hx
    simp only [decide_eq_true_eq] at hx
    obtain ⟨⟨h1, h2⟩, rfl⟩ := hx
    exact hout ⟨h1, h2⟩
  omega

theorem getD_take {α : Type} (l : List α) (n c : ℕ) (d : α) (h : c < n)
    (hc : c < l.length) : (l.take n).getD c d = l.getD c d := by
  rw [List.getD_eq_getElem _ _ (by simp; omega), List.getD_eq_getElem _ _ hc,
    List.getElem_take]

theorem SInv.cell_lt (hinv : SInv m idx i st) (pre : ∀ x ∈ idx, x < m)
    (k : ℕ) (hk : k < idx.length) : st.ind.getD k 0 < m := by
  have hk' : k < st.ind.length := by rw [hinv.hlen]; exact hk
  have hmem : st.ind.getD k 0 ∈ st.ind := by
    rw [List.getD_eq_getElem _ _ hk']
    exact List.getElem_mem hk'
  exact pre _ (hinv.hperm.mem_iff.mp hmem)

theorem sum_off_diff (idx : List ℕ) : ∀ m : ℕ,
    ∑ c ∈ Finset.range m, (off idx (c + 1) - off idx c) = off idx m - off idx 0 := by
  intro m
  induction m with
  | zero => simp
  | succ m ih =>
    rw [Finset.sum_range_succ, ih]
    have h1 := off_mono idx (Nat.zero_le m)
    have h2 := off_mono idx (Nat.le_succ m)
    simp only [Nat.succ_eq_add_one] at h2 ⊢
    omega

/-- When the while-guard holds at slot `i`, cell `c = indices[i]` still has
room (`cellIndex[c] < off (c+1)`, by pigeonhole: the placed slots of `c`
plus the unplaced particle at `i` are all distinct occurrences of `c`), and
the swap target `j = cellIndex[c]` is `≥ i` (slots `< i` are finalized). -/
theorem sort_guard_facts (m : ℕ) (idx : List ℕ) (i : ℕ) (st : SortSt)
    (hinv : SInv m idx i st) (pre : ∀ x ∈ idx, x < m) (hi : i < idx.length)
    (hg : sortCond (cellOffset m idx) i st) :
    st.cix.getD (st.ind.getD i 0) 0 < off idx (st.ind.getD i 0 + 1) ∧
      i ≤ st.cix.getD (st.ind.getD i 0) 0 := by
  have hcm : st.ind.getD i 0 < m := hinv.cell_lt pre i hi
  have hoffc : (cellOffset m idx).getD (st.ind.getD i 0) 0 = off idx (st.ind.getD i 0) :=
    cellOffset_getD m idx pre _ hcm.le
  have hg' : st.cix.getD (st.ind.getD i 0) 0 ≤ i ∨ i < off idx (st.ind.getD i 0) := by
    rcases hg with h | h
    · exact Or.inl h
    · rw [hoffc] at h
      exact Or.inr h
  have hout : ¬(off idx (st.ind.getD i 0) ≤ i ∧
      i < st.cix.getD (st.ind.getD i 0) 0) := by omega
  have hcixN : st.cix.getD (st.ind.getD i 0) 0 ≤ idx.length := by
    have h1 := hinv.hhigh _ hcm
    have h2 := off_mono idx (Nat.succ_le_of_lt hcm)
    have h3 := off_le_length idx m
    simp only [Nat.succ_eq_add_one] at h2
    omega
  have hcount : st.cix.getD (st.ind.getD i 0) 0 - off idx (st.ind.getD i 0) + 1 ≤
      idx.count (st.ind.getD i 0) := by
    have hb := count_lower_bound st.ind (st.ind.getD i 0) (off idx (st.ind.getD i 0))
      (st.cix.getD (st.ind.getD i 0) 0) i
      (by rw [hinv.hlen]; exact hcixN) (by rw [hinv.hlen]; exact hi)
      (fun k h1 h2 => hinv.hplaced _ hcm k h1 h2) rfl hout
    rwa [hinv.hperm.count_eq (st.ind.getD i 0)] at hb
  have hroom : st.cix.getD (st.ind.getD i 0) 0 < off idx (st.ind.getD i 0 + 1) := by
    have h1 := off_succ idx (st.ind.getD i 0)
    have h2 := hinv.hlow _ hcm
    omega
  refine ⟨hroom, ?_⟩
  by_contra hlt
  push_neg at hlt
  -- the swap target j = cellIndex[c] would be an already-finalized slot < i,
  -- yet j lies in no placed region: contradiction
  have hjN : st.cix.getD (st.ind.getD i 0) 0 < idx.length := by
    have h2 := off_mono idx (Nat.succ_le_of_lt hcm)
    have h3 := off_le_length idx m
    simp only [Nat.succ_eq_add_one] at h2
    omega
  obtain ⟨hf1, hf2⟩ := hinv.hfin (st.cix.getD (st.ind.getD i 0) 0) hlt
  have hc2m : st.ind.getD (st.cix.getD (st.ind.getD i 0) 0) 0 < m :=
    hinv.cell_lt pre _ hjN
  by_cases hcc : st.ind.getD (st.cix.getD (st.ind.getD i 0) 0) 0 = st.ind.getD i 0
  · rw [hcc] at hf2
    omega
  · have hlow2 := hinv.hlow _ hc2m
    have hhigh2 := hinv.hhigh _ hc2m
    have hlowc := hinv.hlow _ hcm
    rcases Nat.lt_trichotomy (st.ind.getD i 0)
        (st.ind.getD (st.cix.getD (st.ind.getD i 0) 0) 0) with ht | ht | ht
    · have hmm := off_mono idx (Nat.succ_le_of_lt ht)
      simp only [Nat.succ_eq_add_one] at hmm
      omega
    · exact hcc ht.symm
    · have hmm := off_mono idx (Nat.succ_le_of_lt ht)
      simp only [Nat.succ_eq_add_one] at hmm
      omega

/-- When the guard holds, the total number of placed slots is strictly
below `N`. -/
theorem placed_lt_of_guard (m : ℕ) (idx : List ℕ) (i : ℕ) (st : SortSt)
    (hinv : SInv m idx i st) (pre : ∀ x ∈ idx, x < m) (hi : i < idx.length)
    (hg : sortCond (cellOffset m idx) i st) :
    placed m idx st < idx.length := by
  have hcm : st.ind.getD i 0 < m := hinv.cell_lt pre i hi
  have hroom := (sort_guard_facts m idx i st hinv pre hi hg).1
  have hlt : placed m idx st <
      ∑ c0 ∈ Finset.range m, (off idx (c0 + 1) - off idx c0) := by
    apply Finset.sum_lt_sum
    · intro c0 hc0
      have h1 := hinv.hhigh c0 (Finset.mem_range.mp hc0)
      have h2 := hinv.hlow c0 (Finset.mem_range.mp hc0)
      omega
    · refine ⟨st.ind.getD i 0, Finset.mem_range.mpr hcm, ?_⟩
      have h2 := hinv.hlow _ hcm
      omega
  rw [sum_off_diff idx m, off_zero, off_total idx m pre] at hlt
  omega

/-- One swap of the sorting loop preserves the invariant and increases the
number of placed slots by exactly one. -/
theorem sortStep_preserves_aux (m : ℕ) (idx : List ℕ) (i : ℕ) (st : SortSt)
    (c j : ℕ) (hinv : SInv m idx i st) (pre : ∀ x ∈ idx, x < m)
    (hi : i < idx.length) (hc : c = st.ind.getD i 0) (hj : j = st.cix.getD c 0)
    (hroom : j < off idx (c + 1)) (hij : i ≤ j)
    (hout : ¬(off idx c ≤ i ∧ i < j)) :
    SInv m idx i ⟨swapL st.ind i j, st.cix.set c (j + 1), st.sws ++ [(i, j)]⟩ ∧
      placed m idx ⟨swapL st.ind i j, st.cix.set c (j + 1), st.sws ++ [(i, j)]⟩ =
        placed m idx st + 1 := by
  have hcm : c < m := by rw [hc]; exact hinv.cell_lt pre i hi
  have hlowc : off idx c ≤ j := by rw [hj]; exact hinv.hlow c hcm
  have hjN : j < idx.length := by
    have h2 := off_mono idx (Nat.succ_le_of_lt hcm)
    have h3 := off_le_length idx m
    simp only [Nat.succ_eq_add_one] at h2
    omega
  have hiL : i < st.ind.length := by rw [hinv.hlen]; exact hi
  have hjL : j < st.ind.length := by rw [hinv.hlen]; exact hjN
  have hcL : c < st.cix.length := by rw [hinv.hclen]; exact hcm
  constructor
  · refine ⟨?_, ?_, ?_, ?_, ?_, ?_, ?_, ?_, ?_⟩
    · show (swapL st.ind i j).length = idx.length
      rw [length_swapL, hinv.hlen]
    · show (st.cix.set c (j + 1)).length = m
      rw [List.length_set, hinv.hclen]
    · exact (swapL_perm st.ind i j hiL hjL).trans hinv.hperm
    · intro c0 hc0
      show off idx c0 ≤ (st.cix.set c (j + 1)).getD c0 0
      by_cases hcc : c = c0
      · subst hcc
        rw [getD_set_self _ _ _ _ hcL]
        omega
      · rw [getD_set_ne _ _ _ _ _ hcc]
        exact hinv.hlow c0 hc0
    · intro c0 hc0
      show (st.cix.set c (j + 1)).getD c0 0 ≤ off idx (c0 + 1)
      by_cases hcc : c = c0
      · subst hcc
        rw [getD_set_self _ _ _ _ hcL]
        omega
      · rw [getD_set_ne _ _ _ _ _ hcc]
        exact hinv.hhigh c0 hc0
    · intro c0 hc0 k hk1 hk2
      show (swapL st.ind i j).getD k 0 = c0
      by_cases hcc : c = c0
      · subst hcc
        rw [getD_set_self _ _ _ _ hcL] at hk2
        by_cases hkj : k = j
        · subst hkj
          have hsw : (swapL st.ind i k).getD k 0 = st.ind.getD i 0 := by
            have hd : (0 : ℕ) = default := rfl
            rw [hd, getD_swapL_snd st.ind i k hjL]
          rw [hsw, ← hc]
        · have hkj' : k < j := by omega
          have hki : k ≠ i := by
            intro hki
            subst hki
            exact hout ⟨hk1, hkj'⟩
          have hsw : (swapL st.ind i j).getD k 0 = st.ind.getD k 0 := by
            have hd : (0 : ℕ) = default := rfl
            rw [hd, getD_swapL_other st.ind i j k hki hkj]
          rw [hsw]
          exact hinv.hplaced c hcm k hk1 (by omega)
      · rw [getD_set_ne _ _ _ _ _ hcc] at hk2
        have hki : k ≠ i := by
          intro hki
          subst hki
          have := hinv.hplaced c0 hc0 k hk1 hk2
          rw [← hc] at this
          exact hcc this
        have hkj : k ≠ j := by
          intro hkj
          subst hkj
          have hkc0 := hinv.hplaced c0 hc0 k hk1 hk2
          have hh := hinv.hhigh c0 hc0
          rcases Nat.lt_trichotomy c c0 with ht | ht | ht
          · have hmm := off_mono idx (Nat.succ_le_of_lt ht)
            simp only [Nat.succ_eq_add_one] at hmm
            omega
          · exact hcc ht
          · have hmm := off_mono idx (Nat.succ_le_of_lt ht)
            simp only [Nat.succ_eq_add_one] at hmm
            omega
        have hsw : (swapL st.ind i j).getD k 0 = st.ind.getD k 0 := by
          have hd : (0 : ℕ) = default := rfl
          rw [hd, getD_swapL_other st.ind i j k hki hkj]
        rw [hsw]
        exact hinv.hplaced c0 hc0 k hk1 hk2
    · intro k hk
      have hki : k ≠ i := by omega
      have hkj : k ≠ j := by omega
      have hsw : (swapL st.ind i j).getD k 0 = st.ind.getD k 0 := by
        have hd : (0 : ℕ) = default := rfl
        rw [hd, getD_swapL_other st.ind i j k hki hkj]
      show off idx ((swapL st.ind i j).getD k 0) ≤ k ∧
        k < (st.cix.set c (j + 1)).getD ((swapL st.ind i j).getD k 0) 0
      rw [hsw]
      obtain ⟨h1, h2⟩ := hinv.hfin k hk
      refine ⟨h1, ?_⟩
      by_cases hcc : c = st.ind.getD k 0
      · rw [← hcc, getD_set_self _ _ _ _ hcL, ← hcc] at *
        omega
      · rw [getD_set_ne _ _ _ _ _ hcc]
        exact h2
    · show applySwaps (st.sws ++ [(i, j)]) idx = swapL st.ind i j
      rw [applySwaps_append, hinv.happ]
      rfl
    · intro s hs
      rcases List.mem_append.mp hs with h | h
      · exact hinv.hsb s h
      · have : s = (i, j) := by simpa using h
        subst this
        exact ⟨hi, hjN⟩
  · show (∑ c0 ∈ Finset.range m, ((st.cix.set c (j + 1)).getD c0 0 - off idx c0)) =
      placed m idx st + 1
    have hcmem : c ∈ Finset.range m := Finset.mem_range.mpr hcm
    rw [placed, ← Finset.sum_erase_add _ _ hcmem, ← Finset.sum_erase_add _
      (fun c0 => st.cix.getD c0 0 - off idx c0) hcmem]
    have herase : ∑ c0 ∈ (Finset.range m).erase c,
        ((st.cix.set c (j + 1)).getD c0 0 - off idx c0) =
        ∑ c0 ∈ (Finset.range m).erase c, (st.cix.getD c0 0 - off idx c0) := by
      apply Finset.sum_congr rfl
      intro c0 hc0
      rw [getD_set_ne _ _ _ _ _ (Finset.ne_of_mem_erase hc0).symm]
    rw [herase, getD_set_self _ _ _ _ hcL]
    rw [← hj]
    omega

/-- When the while-guard fails at slot `i`, slot `i` is finalized and the
invariant advances to `i + 1`. -/
theorem sort_guard_false_final (m : ℕ) (idx : List ℕ) (i : ℕ) (st : SortSt)
    (hinv : SInv m idx i st) (pre : ∀ x ∈ idx, x < m) (hi : i < idx.length)
    (hg : ¬ sortCond (cellOffset m idx) i st) : SInv m idx (i + 1) st := by
  have hcm : st.ind.getD i 0 < m := hinv.cell_lt pre i hi
  have hoffc : (cellOffset m idx).getD (st.ind.getD i 0) 0 =
      off idx (st.ind.getD i 0) := cellOffset_getD m idx pre _ hcm.le
  unfold sortCond at hg
  push_neg at hg
  obtain ⟨hg1, hg2⟩ := hg
  rw [hoffc] at hg2
  exact ⟨hinv.hlen, hinv.hclen, hinv.hperm, hinv.hlow, hinv.hhigh, hinv.hplaced,
    fun k hk => by
      by_cases hki : k = i
      · subst hki
        exact ⟨hg2, hg1⟩
      · exact hinv.hfin k (by omega),
    hinv.happ, hinv.hsb⟩

/-- The inner while-loop: with a swap budget covering the unplaced slots it
terminates, preserves the invariant and advances slot `i` to finalized,
consuming one unit of budget per emitted swap. -/
theorem sortInner_ok (m : ℕ) (idx : List ℕ) (pre : ∀ x ∈ idx, x < m) :
    ∀ (fuel i : ℕ) (st : SortSt), SInv m idx i st → i < idx.length →
      idx.length ≤ fuel + placed m idx st →
      ∃ st' rem, sortInner (cellOffset m idx) i fuel st = some (st', rem) ∧
        SInv m idx (i + 1) st' ∧ idx.length ≤ rem + placed m idx st' ∧
        rem + st'.sws.length = fuel + st.sws.length := by
  intro fuel
  induction fuel with
  | zero =>
    intro i st hinv hi hfuel
    by_cases hg : sortCond (cellOffset m idx) i st
    · have := placed_lt_of_guard m idx i st hinv pre hi hg
      omega
    · refine ⟨st, 0, ?_, sort_guard_false_final m idx i st hinv pre hi hg, hfuel, rfl⟩
      simp [sortInner, hg]
  | succ fuel ih =>
    intro i st hinv hi hfuel
    by_cases hg : sortCond (cellOffset m idx) i st
    · have hfacts := sort_guard_facts m idx i st hinv pre hi hg
      have hout : ¬(off idx (st.ind.getD i 0) ≤ i ∧
          i < st.cix.getD (st.ind.getD i 0) 0) := by
        have hoffc : (cellOffset m idx).getD (st.ind.getD i 0) 0 =
            off idx (st.ind.getD i 0) :=
          cellOffset_getD m idx pre _ (hinv.cell_lt pre i hi).le
        rcases hg with h | h
        · intro hcon; omega
        · rw [hoffc] at h
          intro hcon; omega
      obtain ⟨hstep, hplaced1⟩ := sortStep_preserves_aux m idx i st
        (st.ind.getD i 0) (st.cix.getD (st.ind.getD i 0) 0) hinv pre hi rfl rfl
        hfacts.1 hfacts.2 hout
      have hstep_eq : sortStep i st =
          ⟨swapL st.ind i (st.cix.getD (st.ind.getD i 0) 0),
            st.cix.set (st.ind.getD i 0) (st.cix.getD (st.ind.getD i 0) 0 + 1),
            st.sws ++ [(i, st.cix.getD (st.ind.getD i 0) 0)]⟩ := rfl
      obtain ⟨st', rem, heq, hinv', hfuel', hlen'⟩ := ih i (sortStep i st)
        (by rw [hstep_eq]; exact hstep) hi
        (by rw [hstep_eq, hplaced1]; omega)
      refine ⟨st', rem, ?_, hinv', hfuel', ?_⟩
      · show sortInner (cellOffset m idx) i (fuel + 1) st = some (st', rem)
        unfold sortInner
        rw [if_pos hg]
        exact heq
      · rw [hlen', hstep_eq]
        simp
        omega
    · refine ⟨st, fuel + 1, ?_, sort_guard_false_final m idx i st hinv pre hi hg,
        hfuel, rfl⟩
      unfold sortInner
      rw [if_neg hg]

/-- The outer loop of the sorting pass over slots `a, a+1, …, N-1`. -/
theorem sortOuter_ok (m : ℕ) (idx : List ℕ) (pre : ∀ x ∈ idx, x < m) :
    ∀ (k a fuel : ℕ) (st : SortSt), a + k = idx.length → SInv m idx a st →
      idx.length ≤ fuel + placed m idx st →
      ∃ st', sortOuter (cellOffset m idx) (List.range' a k) fuel st = some st' ∧
        SInv m idx idx.length st' ∧ st'.sws.length ≤ fuel + st.sws.length := by
  intro k
  induction k with
  | zero =>
    intro a fuel st hak hinv hfuel
    refine ⟨st, rfl, ?_, by omega⟩
    rw [← hak]
    simpa using hinv
  | succ k ih =>
    intro a fuel st hak hinv hfuel
    have ha : a < idx.length := by omega
    obtain ⟨st1, rem, heq1, hinv1, hfuel1, hlen1⟩ :=
      sortInner_ok m idx pre fuel a st hinv ha hfuel
    obtain ⟨st', heq2, hinv', hlen2⟩ := ih (a + 1) rem st1 (by omega) hinv1 hfuel1
    refine ⟨st', ?_, hinv', by omega⟩
    rw [List.range'_succ]
    show sortOuter (cellOffset m idx) (a :: List.range' (a + 1) k) fuel st = some st'
    unfold sortOuter
    rw [heq1]
    exact heq2

/-- `Grid::update` terminates within its swap budget of `N` and establishes
the sorting invariant for the whole array. -/
theorem gridUpdate_ok (m : ℕ) (idx : List ℕ) (pre : ∀ x ∈ idx, x < m) :
    ∃ stF, gridUpdate m idx = some (stF.ind, cellOffset m idx, stF.sws) ∧
      SInv m idx idx.length stF ∧ stF.sws.length ≤ idx.length := by
  have hlen0 : ((cellOffset m idx).take m).length = m := by
    rw [List.length_take, cellOffset_length]
    omega
  have hcix0 : ∀ c, c < m → ((cellOffset m idx).take m).getD c 0 = off idx c := by
    intro c hc
    rw [getD_take _ _ _ _ hc (by rw [cellOffset_length]; omega)]
    exact cellOffset_getD m idx pre c hc.le
  have hinv0 : SInv m idx 0 ⟨idx, (cellOffset m idx).take m, []⟩ := by
    refine ⟨rfl, hlen0, List.Perm.refl idx, ?_, ?_, ?_, ?_, rfl, by simp⟩
    · intro c hc
      rw [hcix0 c hc]
    · intro c hc
      rw [hcix0 c hc]
      exact off_mono idx (Nat.le_succ c)
    · intro c hc k hk1 hk2
      rw [hcix0 c hc] at hk2
      omega
    · intro k hk
      omega
  have hplaced0 : placed m idx ⟨idx, (cellOffset m idx).take m, []⟩ = 0 := by
    rw [placed]
    apply Finset.sum_eq_zero
    intro c hc
    rw [hcix0 c (Finset.mem_range.mp hc)]
    omega
  obtain ⟨st', heq, hinv', hlen'⟩ := sortOuter_ok m idx pre idx.length 0 idx.length
    ⟨idx, (cellOffset m idx).take m, []⟩ (by omega) hinv0 (by omega)
  refine ⟨st', ?_, hinv', by simpa using hlen'⟩
  show (sortOuter (cellOffset m idx) (List.range idx.length) idx.length
      ⟨idx, (cellOffset m idx).take m, []⟩).map
      (fun st => (st.ind, cellOffset m idx, st.sws)) = _
  rw [List.range_eq_range', heq]
  rfl

/-- After the whole sorting pass every slot of `[off c, off (c+1))` holds a
cell-`c` particle. -/
theorem final_mapping (m : ℕ) (idx : List ℕ) (stF : SortSt)
    (hinv : SInv m idx idx.length stF) (pre : ∀ x ∈ idx, x < m) :
    ∀ c, c < m → ∀ k, off idx c ≤ k → k < off idx (c + 1) → stF.ind.getD k 0 = c := by
  intro c hc k hk1 hk2
  have hkN : k < idx.length := by
    have h1 := off_mono idx (Nat.succ_le_of_lt hc)
    have h2 := off_le_length idx m
    simp only [Nat.succ_eq_add_one] at h1
    omega
  obtain ⟨hf1, hf2⟩ := hinv.hfin k hkN
  have hc2 : stF.ind.getD k 0 < m := hinv.cell_lt pre k hkN
  have hh := hinv.hhigh _ hc2
  rcases Nat.lt_trichotomy c (stF.ind.getD k 0) with ht | ht | ht
  · have hmm := off_mono idx (Nat.succ_le_of_lt ht)
    simp only [Nat.succ_eq_add_one] at hmm
    omega
  · exact ht.symm
  · have hmm := off_mono idx (Nat.succ_le_of_lt ht)
    simp only [Nat.succ_eq_add_one] at hmm
    omega

/-- After the whole sorting pass the ranges `[off c, off (c+1))`, `c < m`,
partition `[0, N)`: every slot lies in exactly one of them. -/
theorem final_partition (m : ℕ) (idx : List ℕ) (stF : SortSt)
    (hinv : SInv m idx idx.length stF) (pre : ∀ x ∈ idx, x < m) :
    ∀ k, k < idx.length →
      ∃! c, c < m ∧ off idx c ≤ k ∧ k < off idx (c + 1) := by
  intro k hk
  obtain ⟨hf1, hf2⟩ := hinv.hfin k hk
  have hc2 : stF.ind.getD k 0 < m := hinv.cell_lt pre k hk
  have hh := hinv.hhigh _ hc2
  refine ⟨stF.ind.getD k 0, ⟨hc2, hf1, by omega⟩, ?_⟩
  intro c ⟨hcm, hck1, hck2⟩
  rcases Nat.lt_trichotomy c (stF.ind.getD k 0) with ht | ht | ht
  · have hmm := off_mono idx (Nat.succ_le_of_lt ht)
    simp only [Nat.succ_eq_add_one] at hmm
    omega
  · exact ht
  · have hmm := off_mono idx (Nat.succ_le_of_lt ht)
    simp only [Nat.succ_eq_add_one] at hmm
    omega

/-! ## C6: the partition postcondition of `Grid::update` -/

/-- C6: for a particle set whose positions all map to valid grid cells,
`Grid::update` (the counting pass, the offset pass and the in-place sort,
with the caller's swap callback replayed on the positions array) reaches a
state where: the offsets array has length `cellCount + 1` and its last
entry is `N`; for every cell `c`, every particle slot in
`[offset[c], offset[c+1])` maps to cell `c` under the position-to-linear-
cell function; and these ranges partition `[0, N)` exactly, with no gaps
or overlaps. -/
theorem grid_update_partition_postcondition (g : Grid) (positions : List (V3 ℚ))
    (hpre : ∀ p ∈ positions, g.inRange (g.index p)) :
    ∃ ind offL sws,
      gridUpdate (g.size.x * g.size.y * g.size.z).toNat
          (positions.map (fun p => (g.indexLinear p).toNat)) =
        some (ind, offL, sws) ∧
      offL.length = (g.size.x * g.size.y * g.size.z).toNat + 1 ∧
      offL.getD (g.size.x * g.size.y * g.size.z).toNat 0 = positions.length ∧
      (∀ c, c < (g.size.x * g.size.y * g.size.z).toNat →
        ∀ k, offL.getD c 0 ≤ k → k < offL.getD (c + 1) 0 →
          (g.indexLinear ((applySwaps sws positions).getD k default)).toNat = c) ∧
      (∀ k, k < positions.length →
        ∃! c, c < (g.size.x * g.size.y * g.size.z).toNat ∧
          offL.getD c 0 ≤ k ∧ k < offL.getD (c + 1) 0) := by
  have pre : ∀ x ∈ positions.map (fun p => (g.indexLinear p).toNat),
      x < (g.size.x * g.size.y * g.size.z).toNat := by
    intro x hx
    obtain ⟨p, hp, rfl⟩ := List.mem_map.mp hx
    obtain ⟨h0, h1⟩ := g.cellLinear_lt (g.index p) (hpre p hp)
    have heqi : g.indexLinear p = g.cellLinear (g.index p) := rfl
    rw [heqi]
    omega
  obtain ⟨stF, heq, hinv, hswlen⟩ :=
    gridUpdate_ok (g.size.x * g.size.y * g.size.z).toNat
      (positions.map (fun p => (g.indexLinear p).toNat)) pre
  set m := (g.size.x * g.size.y * g.size.z).toNat with hm
  set idx := positions.map (fun p => (g.indexLinear p).toNat) with hidx
  have hNlen : idx.length = positions.length := by rw [hidx, List.length_map]
  have hmap : stF.ind = (applySwaps stF.sws positions).map
      (fun p => (g.indexLinear p).toNat) := by
    rw [← hinv.happ, hidx, applySwaps_map]
    intro s hs
    have := hinv.hsb s hs
    omega
  refine ⟨stF.ind, cellOffset m idx, stF.sws, heq, cellOffset_length m idx, ?_, ?_, ?_⟩
  · rw [cellOffset_getD m idx pre m le_rfl, off_total idx m pre, hNlen]
  · intro c hc k hk1 hk2
    rw [cellOffset_getD m idx pre c hc.le] at hk1
    rw [cellOffset_getD m idx pre (c + 1) hc] at hk2
    have hfm := final_mapping m idx stF hinv pre c hc k hk1 hk2
    have hkN : k < (applySwaps stF.sws positions).length := by
      rw [length_applySwaps]
      have h1 := off_mono idx (Nat.succ_le_of_lt hc)
      have h2 := off_le_length idx m
      simp only [Nat.succ_eq_add_one] at h1
      omega
    rw [hmap] at hfm
    rw [← hfm, List.getD_eq_getElem _ _ hkN,
      List.getD_eq_getElem _ _ (show k < (List.map (fun p => (g.indexLinear p).toNat)
        (applySwaps stF.sws positions)).length by simpa using hkN),
      List.getElem_map]
  · intro k hk
    obtain ⟨c, ⟨hcm, hc1, hc2⟩, hu⟩ :=
      final_partition m idx stF hinv pre k (by omega)
    refine ⟨c, ⟨hcm, ?_, ?_⟩, ?_⟩
    · rwa [cellOffset_getD m idx pre c hcm.le]
    · rwa [cellOffset_getD m idx pre (c + 1) hcm]
    · intro c0 ⟨h0m, h01, h02⟩
      apply hu
      refine ⟨h0m, ?_, ?_⟩
      · rwa [cellOffset_getD m idx pre c0 h0m.le] at h01
      · rwa [cellOffset_getD m idx pre (c0 + 1) h0m] at h02

/-- Witness for C6 at a concrete grid (`2×1×1` unit cells) and two
particles given in cell order `1, 0`. -/
theorem grid_update_partition_postcondition_witness :
    ∃ ind offL sws,
      gridUpdate ((Grid.mk ⟨0, 0, 0⟩ 1 ⟨2, 1, 1⟩).size.x *
            (Grid.mk ⟨0, 0, 0⟩ 1 ⟨2, 1, 1⟩).size.y *
            (Grid.mk ⟨0, 0, 0⟩ 1 ⟨2, 1, 1⟩).size.z).toNat
          (([⟨3/2, 0, 0⟩, ⟨1/2, 0, 0⟩] : List (V3 ℚ)).map
            (fun p => ((Grid.mk ⟨0, 0, 0⟩ 1 ⟨2, 1, 1⟩).indexLinear p).toNat)) =
        some (ind, offL, sws) ∧
      offL.length = ((Grid.mk ⟨0, 0, 0⟩ 1 ⟨2, 1, 1⟩).size.x *
            (Grid.mk ⟨0, 0, 0⟩ 1 ⟨2, 1, 1⟩).size.y *
            (Grid.mk ⟨0, 0, 0⟩ 1 ⟨2, 1, 1⟩).size.z).toNat + 1 ∧
      offL.getD ((Grid.mk ⟨0, 0, 0⟩ 1 ⟨2, 1, 1⟩).size.x *
            (Grid.mk ⟨0, 0, 0⟩ 1 ⟨2, 1, 1⟩).size.y *
            (Grid.mk ⟨0, 0, 0⟩ 1 ⟨2, 1, 1⟩).size.z).toNat 0 =
        ([⟨3/2, 0, 0⟩, ⟨1/2, 0, 0⟩] : List (V3 ℚ)).length ∧
      (∀ c, c < ((Grid.mk ⟨0, 0, 0⟩ 1 ⟨2, 1, 1⟩).size.x *
            (Grid.mk ⟨0, 0, 0⟩ 1 ⟨2, 1, 1⟩).size.y *
            (Grid.mk ⟨0, 0, 0⟩ 1 ⟨2, 1, 1⟩).size.z).toNat →
        ∀ k, offL.getD c 0 ≤ k → k < offL.getD (c + 1) 0 →
          ((Grid.mk ⟨0, 0, 0⟩ 1 ⟨2, 1, 1⟩).indexLinear
            ((applySwaps sws ([⟨3/2, 0, 0⟩, ⟨1/2, 0, 0⟩] : List (V3 ℚ))).getD k
              default)).toNat = c) ∧
      (∀ k, k < ([⟨3/2, 0, 0⟩, ⟨1/2, 0, 0⟩] : List (V3 ℚ)).length →
        ∃! c, c < ((Grid.mk ⟨0, 0, 0⟩ 1 ⟨2, 1, 1⟩).size.x *
            (Grid.mk ⟨0, 0, 0⟩ 1 ⟨2, 1, 1⟩).size.y *
            (Grid.mk ⟨0, 0, 0⟩ 1 ⟨2, 1, 1⟩).size.z).toNat ∧
          offL.getD c 0 ≤ k ∧ k < offL.getD (c + 1) 0) :=
  grid_update_partition_postcondition (Grid.mk ⟨0, 0, 0⟩ 1 ⟨2, 1, 1⟩)
    [⟨3/2, 0, 0⟩, ⟨1/2, 0, 0⟩]
    (by
      intro p hp
      fin_cases hp <;> norm_num [Grid.inRange, Grid.index])

/-! ## C10: termination of the cycle-chasing sort with at most `N` swaps,
and the swap sequence is a permutation -/

/-- C10: for every input whose cell indices are all valid, the sorting pass
of `Grid::update` terminates — the nested while-loop performs at most `N`
swaps in total (the explicit swap budget of `N` in the embedding is never
exhausted) — every emitted swap touches only slots in `[0, N)`, the final
`indices` array is a permutation of the initial one, and replaying the
emitted swap callbacks on any co-indexed attribute array of length `N`
(as `SPH::update` does with `_positions` and `_velocities`) produces a
permutation of that array: the reordered arrays are a rearrangement of the
original entries, none lost or duplicated. -/
theorem grid_update_sort_terminates (m : ℕ) (idx : List ℕ)
    (pre : ∀ x ∈ idx, x < m) :
    ∃ ind offL sws, gridUpdate m idx = some (ind, offL, sws) ∧
      sws.length ≤ idx.length ∧
      (∀ s ∈ sws, s.1 < idx.length ∧ s.2 < idx.length) ∧
      ind.Perm idx ∧
      (∀ l : List (V3 ℚ), l.length = idx.length → (applySwaps sws l).Perm l) := by
  obtain ⟨stF, heq, hinv, hswlen⟩ := gridUpdate_ok m idx pre
  refine ⟨stF.ind, cellOffset m idx, stF.sws, heq, hswlen, hinv.hsb, hinv.hperm, ?_⟩
  intro l hl
  apply applySwaps_perm
  intro s hs
  obtain ⟨h1, h2⟩ := hinv.hsb s hs
  omega

/-- Witness for C10 at a concrete two-cell, two-particle input. -/
theorem grid_update_sort_terminates_witness :
    ∃ ind offL sws, gridUpdate 2 [1, 0] = some (ind, offL, sws) ∧
      sws.length ≤ 2 ∧
      (∀ s ∈ sws, s.1 < 2 ∧ s.2 < 2) ∧
      ind.Perm [1, 0] ∧
      (∀ l : List (V3 ℚ), l.length = 2 → (applySwaps sws l).Perm l) := by
  have h := grid_update_sort_terminates 2 [1, 0] (by decide)
  simpa using h

/-! ## C9: `Grid::update` indexes unclamped, safe exactly under the
in-bounds precondition -/

/-- C9: the counting pass of `Grid::update` indexes `cellCount` directly
with `indexLinear(positions[i])`, with no clamping (compare
`Grid.indexLinear`, which applies `floor` and linearizes the raw cell
coordinate as is, with `Grid.lookupCells`, which clamps).  Under the
precondition that every position's per-axis cell coordinate lies in
`[0, size-1]`, every linear index computed in the counting pass lies in
`[0, size.x*size.y*size.z)`, so all array accesses are in range. -/
theorem grid_update_unclamped_indexing_safe (g : Grid) (positions : List (V3 ℚ))
    (hpre : ∀ p ∈ positions, g.inRange (g.index p)) :
    ∀ p ∈ positions,
      0 ≤ g.indexLinear p ∧ g.indexLinear p < g.size.x * g.size.y * g.size.z := by
  intro p hp
  exact g.cellLinear_lt (g.index p) (hpre p hp)

/-- Witness for C9 at a concrete grid (unit cells, `2×2×2`) and a concrete
particle set. -/
theorem grid_update_unclamped_indexing_safe_witness :
    (∀ p ∈ ([⟨1/2, 1/2, 1/2⟩, ⟨3/2, 1/2, 3/2⟩] : List (V3 ℚ)),
        Grid.inRange ⟨⟨0, 0, 0⟩, 1, ⟨2, 2, 2⟩⟩ (Grid.index ⟨⟨0, 0, 0⟩, 1, ⟨2, 2, 2⟩⟩ p)) ∧
      ∀ p ∈ ([⟨1/2, 1/2, 1/2⟩, ⟨3/2, 1/2, 3/2⟩] : List (V3 ℚ)),
        0 ≤ Grid.indexLinear ⟨⟨0, 0, 0⟩, 1, ⟨2, 2, 2⟩⟩ p ∧
          Grid.indexLinear ⟨⟨0, 0, 0⟩, 1, ⟨2, 2, 2⟩⟩ p < 2 * 2 * 2 := by
  have hpre : ∀ p ∈ ([⟨1/2, 1/2, 1/2⟩, ⟨3/2, 1/2, 3/2⟩] : List (V3 ℚ)),
      Grid.inRange ⟨⟨0, 0, 0⟩, 1, ⟨2, 2, 2⟩⟩ (Grid.index ⟨⟨0, 0, 0⟩, 1, ⟨2, 2, 2⟩⟩ p) := by
    intro p hp
    fin_cases hp <;> norm_num [Grid.inRange, Grid.index]
  exact ⟨hpre, grid_update_unclamped_indexing_safe _ _ hpre⟩

/-! ## C7: `Grid::lookup` clamps the query box and never goes out of range -/

/-- C7: for every query point (including points outside the grid bounds) and
non-negative radius, `Grid::lookup` visits only cells with per-axis
coordinates in `[0, size-1]`; every visited cell's linear index reads
in-range entries of the `_cellOffset` array; under the offset-array
postcondition of `Grid::update` (monotone offsets with final entry `N`),
the visitor only receives particle slots in `[0, N)`; and a query box
entirely outside the grid on some axis visits nothing. -/
theorem grid_lookup_clamped_safe (g : Grid) (offL : List ℕ) (pos : V3 ℚ)
    (radius : ℚ) (N : ℕ) (hr : 0 ≤ radius)
    (hlen : offL.length = (g.size.x * g.size.y * g.size.z).toNat + 1)
    (hmono : ∀ a b : ℕ, a ≤ b → b ≤ (g.size.x * g.size.y * g.size.z).toNat →
      offL.getD a 0 ≤ offL.getD b 0)
    (hlast : offL.getD (g.size.x * g.size.y * g.size.z).toNat 0 = N) :
    (∀ c ∈ Grid.lookupCells g pos radius, g.inRange c) ∧
    (∀ c ∈ Grid.lookupCells g pos radius,
      (g.cellLinear c).toNat + 1 < offL.length) ∧
    (∀ j ∈ Grid.lookupSlots g offL pos radius, j < N) ∧
    (((g.index (pos + ⟨radius, radius, radius⟩)).x < 0 ∨
      (g.index (pos - ⟨radius, radius, radius⟩)).x > g.size.x - 1 ∨
      (g.index (pos + ⟨radius, radius, radius⟩)).y < 0 ∨
      (g.index (pos - ⟨radius, radius, radius⟩)).y > g.size.y - 1 ∨
      (g.index (pos + ⟨radius, radius, radius⟩)).z < 0 ∨
      (g.index (pos - ⟨radius, radius, radius⟩)).z > g.size.z - 1) →
      Grid.lookupSlots g offL pos radius = []) := by
  have hcells : ∀ c ∈ Grid.lookupCells g pos radius, g.inRange c := by
    intro c hc
    simp only [Grid.lookupCells, List.mem_flatMap, List.mem_map] at hc
    obtain ⟨z, hz, y, hy, x, hx, rfl⟩ := hc
    obtain ⟨hz1, hz2⟩ := Grid.mem_intRange hz
    obtain ⟨hy1, hy2⟩ := Grid.mem_intRange hy
    obtain ⟨hx1, hx2⟩ := Grid.mem_intRange hx
    refine ⟨?_, ?_, ?_, ?_, ?_, ?_⟩ <;> simp only [] <;> omega
  have hlin : ∀ c ∈ Grid.lookupCells g pos radius,
      (g.cellLinear c).toNat + 1 < offL.length := by
    intro c hc
    obtain ⟨h0, h1⟩ := g.cellLinear_lt c (hcells c hc)
    rw [hlen]
    omega
  refine ⟨hcells, hlin, ?_, ?_⟩
  · intro j hj
    simp only [Grid.lookupSlots, List.mem_flatMap, List.mem_map] at hj
    obtain ⟨c, hc, k, hk, rfl⟩ := hj
    have hk' := List.mem_range.mp hk
    obtain ⟨h0, h1⟩ := g.cellLinear_lt c (hcells c hc)
    set i := (g.cellLinear c).toNat with hi
    have hiub : i + 1 ≤ (g.size.x * g.size.y * g.size.z).toNat := by omega
    have hmo := hmono (i + 1) (g.size.x * g.size.y * g.size.z).toNat hiub le_rfl
    rw [hlast] at hmo
    omega
  · intro hout
    apply Grid.flatMap_eq_nil_of_forall
    intro c hc
    exact absurd (hcells c hc) (by
      rcases hout with h | h | h | h | h | h <;>
        · intro hin
          obtain ⟨hx0, hx1, hy0, hy1, hz0, hz1⟩ := hin
          simp only [Grid.lookupCells, List.mem_flatMap, List.mem_map] at hc
          obtain ⟨z, hz, y, hy, x, hx, rfl⟩ := hc
          first
            | (obtain ⟨ha, hb⟩ := Grid.mem_intRange hx; simp only [] at *; omega)
            | (obtain ⟨ha, hb⟩ := Grid.mem_intRange hy; simp only [] at *; omega)
            | (obtain ⟨ha, hb⟩ := Grid.mem_intRange hz; simp only [] at *; omega))

/-- Witness for C7 at a concrete grid, offset array and query. -/
theorem grid_lookup_clamped_safe_witness :
    (0 ≤ (5 : ℚ)) ∧
      (∀ c ∈ Grid.lookupCells ⟨⟨0, 0, 0⟩, 1, ⟨2, 2, 2⟩⟩ ⟨-7, 3, 9⟩ 5,
        Grid.inRange ⟨⟨0, 0, 0⟩, 1, ⟨2, 2, 2⟩⟩ c) ∧
      (∀ j ∈ Grid.lookupSlots ⟨⟨0, 0, 0⟩, 1, ⟨2, 2, 2⟩⟩
          [0, 1, 1, 2, 2, 2, 3, 3, 3] ⟨-7, 3, 9⟩ 5, j < 3) := by
  have h := grid_lookup_clamped_safe ⟨⟨0, 0, 0⟩, 1, ⟨2, 2, 2⟩⟩
    [0, 1, 1, 2, 2, 2, 3, 3, 3] ⟨-7, 3, 9⟩ 5 3 (by norm_num)
    (by decide)
    (by
      intro a b hab hb
      have hb8 : b ≤ 8 := by simpa using hb
      interval_cases b <;> interval_cases a <;> decide)
    (by decide)
  exact ⟨by norm_num, h.1, h.2.2.1⟩

/-- C1 (failing input for the code bug): in the domain `[0,1]³` with two
particles, the first (slot 0, inside) and the last (slot 1, at `x = 2`,
strictly outside), one `computeCollisions` pass leaves the last particle
untouched and still strictly outside the domain, because the loop bound
`i < _positions.size() - 1` skips the final slot.  By contrast, a particle
in a processed slot (second conjunct, the same outside position in slot 0)
is relocated onto the boundary plane `x = 1` and has its velocity's
boundary-normal component reflected with restitution `c = 0.5`:
`(1,0,0) ↦ (-1/2,0,0)`. -/
theorem computeCollisions_skips_last_particle :
    (collisionPass ⟨0, 0, 0⟩ ⟨1, 1, 1⟩
        [⟨1/2, 1/2, 1/2⟩, ⟨2, 1/2, 1/2⟩] [0, 0] =
      ([⟨1/2, 1/2, 1/2⟩, ⟨2, 1/2, 1/2⟩], [0, 0]) ∧ (2 : ℚ) > 1) ∧
    collisionPass ⟨0, 0, 0⟩ ⟨1, 1, 1⟩
        [⟨2, 1/2, 1/2⟩, ⟨1/2, 1/2, 1/2⟩] [⟨1, 0, 0⟩, 0] =
      ([⟨1, 1/2, 1/2⟩, ⟨1/2, 1/2, 1/2⟩], [⟨-1/2, 0, 0⟩, 0]) := by
  norm_num [collisionPass, collideParticle, collideResponse, V3.dot, List.range_succ,
    V3.ext_iff]

/-! ## C2: the `poly6` density kernel is *not* normalized

The normalization of the poly6 kernel `C·(h²-r²)³` over the radius-`h`
ball in 3D is, in spherical shells, `∫₀ʰ 4πr²·C·(h²-r²)³ dr`; the unique
constant making this `1` is `C = 315/(64·π·h⁹)`.  `Kernel::init` instead
sets `poly6Constant = 365/(64·π·h⁹)` — the literal `365` is a typo for
`315` (the companion constant `poly6GradConstant = -945/(32·π·h⁹)` is the
correct gradient normalization *for 315*, i.e. `-6·315/(32·π·h⁹) ·
(32/64)`-consistent, corroborating the slip).  The theorem is stated at
`h = 1`. -/

/-- C2: at `h = 1`, (i) for every constant `C`, the 3D ball integral of
`C·poly6` equals `1` iff `C = 315/(64π)` (so `315/(64π·h⁹)` is the unique
normalizing constant the claim names); (ii) the constant the code computes
is `365/(64π)`, which differs from the normalizer; and (iii) with the
code's constant the kernel integrates to `365/315 ≠ 1`. -/
theorem poly6Constant_not_normalized :
    (∀ C : ℝ, (∫ x in (0:ℝ)..1, 4 * π * x ^ 2 * (C * (Kernel.init 1).poly6 (x ^ 2))) = 1 ↔
      C = 315 / (64 * π)) ∧
    (Kernel.init 1).poly6Constant = 365 / (64 * π) ∧
    (Kernel.init 1).poly6Constant ≠ 315 / (64 * π) ∧
    (∫ x in (0:ℝ)..1,
        4 * π * x ^ 2 * ((Kernel.init 1).poly6Constant * (Kernel.init 1).poly6 (x ^ 2))) =
      365 / 315 ∧
    (365 : ℝ) / 315 ≠ 1 := by
  have hπ : (0 : ℝ) < π := Real.pi_pos
  have hmain : ∀ C : ℝ,
      (∫ x in (0:ℝ)..1, 4 * π * x ^ 2 * (C * (Kernel.init 1).poly6 (x ^ 2))) =
        C * (64 * π / 315) := by
    intro C
    have e : (fun x : ℝ => 4 * π * x ^ 2 * (C * (Kernel.init 1).poly6 (x ^ 2))) =
        fun x : ℝ => (4 * π * C) * (x ^ 2 - 3 * x ^ 4 + 3 * x ^ 6 - x ^ 8) := by
      funext x
      simp only [Kernel.poly6, Kernel.init, cube, sqr]
      ring
    rw [e, intervalIntegral.integral_const_mul]
    have hp : ∀ n : ℕ, IntervalIntegrable (fun x : ℝ => x ^ n) MeasureTheory.volume 0 1 :=
      fun n => (continuous_pow n).intervalIntegrable 0 1
    rw [intervalIntegral.integral_sub
        (((hp 2).sub ((hp 4).const_mul 3)).add ((hp 6).const_mul 3)) (hp 8),
      intervalIntegral.integral_add ((hp 2).sub ((hp 4).const_mul 3)) ((hp 6).const_mul 3),
      intervalIntegral.integral_sub (hp 2) ((hp 4).const_mul 3),
      intervalIntegral.integral_const_mul, intervalIntegral.integral_const_mul]
    simp [integral_pow]
    ring
  have hC : (Kernel.init 1).poly6Constant = 365 / (64 * π) := by
    simp [Kernel.init]
  refine ⟨?_, hC, ?_, ?_, by norm_num⟩
  · intro C
    rw [hmain C]
    constructor
    · intro h1
      field_simp at h1
      field_simp
      linarith
    · rintro rfl
      field_simp
  · rw [hC]
    intro heq
    have : (365 : ℝ) = 315 := by
      field_simp at heq
      linarith
    norm_num at this
  · rw [hmain, hC]
    field_simp

/-! ## C8: Newton's-third-law antisymmetry of the pressure force -/

/-- C8: in exact real arithmetic, for two distinct particles within support
radius (`0 < r² < h²`), the pressure-force term accumulated into particle
`i`'s force from neighbor `j` (namely `- pressurePairTerm P ρᵢ pᵢ ρⱼ pⱼ
(posᵢ - posⱼ)`, as subtracted in `forceStep`) is the exact negation of the
term accumulated into `j`'s force from neighbor `i`: the scalar
`m²(pᵢ/ρᵢ² + pⱼ/ρⱼ²)` is invariant under swapping the roles of `i` and `j`,
the squared distance (hence `rn`) is symmetric, and `spikyGrad` is odd in
the displacement vector.  -/
theorem pressure_force_pairwise_antisymmetric (P : SPHParams)
    (pos_i pos_j : V3 ℝ) (density_i pressure_i density_j pressure_j : ℝ)
    (h0 : 0 < V3.normSq (pos_i - pos_j))
    (hh : V3.normSq (pos_i - pos_j) < P.kernel.h2) :
    pressurePairTerm P density_i pressure_i density_j pressure_j (pos_i - pos_j) =
      -(pressurePairTerm P density_j pressure_j density_i pressure_i (pos_j - pos_i)) := by
  have hsym : V3.normSq (pos_j - pos_i) = V3.normSq (pos_i - pos_j) :=
    V3.normSq_neg_sub pos_i pos_j
  simp only [pressurePairTerm, Kernel.spikyGrad, hsym]
  set s := Real.sqrt (V3.normSq (pos_i - pos_j)) with hs
  simp only [V3.sub_def, V3.smul_def, V3.neg_def, sqr, V3.mk.injEq]
  refine ⟨by ring, by ring, by ring⟩

/-- Witness for C8 at a concrete parameter set and particle pair. -/
theorem pressure_force_pairwise_antisymmetric_witness :
    (0 < V3.normSq ((⟨1, 0, 0⟩ : V3 ℝ) - ⟨0, 0, 0⟩) ∧
      V3.normSq ((⟨1, 0, 0⟩ : V3 ℝ) - ⟨0, 0, 0⟩) < (Kernel.init 2).h2) ∧
    pressurePairTerm ⟨1, 1, 1, Kernel.init 2⟩ 1 1 1 1 ((⟨1, 0, 0⟩ : V3 ℝ) - ⟨0, 0, 0⟩) =
      -(pressurePairTerm ⟨1, 1, 1, Kernel.init 2⟩ 1 1 1 1
          ((⟨0, 0, 0⟩ : V3 ℝ) - ⟨1, 0, 0⟩)) := by
  have h0 : (0 : ℝ) < V3.normSq ((⟨1, 0, 0⟩ : V3 ℝ) - ⟨0, 0, 0⟩) := by
    norm_num [V3.normSq]
  have hh : V3.normSq ((⟨1, 0, 0⟩ : V3 ℝ) - ⟨0, 0, 0⟩) < (Kernel.init 2).h2 := by
    norm_num [V3.normSq, Kernel.init, sqr]
  exact ⟨⟨h0, hh⟩,
    pressure_force_pairwise_antisymmetric ⟨1, 1, 1, Kernel.init 2⟩ _ _ _ _ _ _ h0 hh⟩

/-! ## C3: the force pass does *not* read the settings written between steps

`SPH::update` overwrites `_settings.gravity` with `(0, -9.81, 0)` before
the force pass, and `SPH::computeForces` scales the viscosity force by a
local constant `0.0001f` (the enabled code never reads
`_settings.viscosity` or `_settings.stiffness`). -/

/-- C3 (counterexample): write `gravity = (1,2,3)` and `viscosity = 5` to
the settings between steps; with a single particle of mass 1 and no
neighbors, the next step's force pass stores `mass · (0, -9.81, 0)` as the
particle's force — not `mass · (1,2,3)` as the claim requires. -/
theorem update_gravity_setting_ignored_counterexample :
    (updateForcePass 0 ⟨1, 1, 1, Kernel.init 1⟩ ⟨3, 5, ⟨1, 2, 3⟩⟩ (fun _ => [0])
        ⟨[0], [0], [0], [0], [1], [0]⟩).forces = [⟨0, -981/100, 0⟩] ∧
    (⟨0, -981/100, 0⟩ : V3 ℝ) ≠
      (1 : ℝ) • (⟨1, 2, 3⟩ : V3 ℝ) := by
  constructor
  · simp [updateForcePass, computeForces, computeForcesOne, forceStep,
      gravitySchedule, List.range_succ, V3.ext_iff]
  · simp only [V3.smul_def, ne_eq, V3.ext_iff]
    norm_num

/-- C3 (amended): the force pass of a step is entirely independent of the
gravity and viscosity settings written between steps — `update` overwrites
the gravity setting with `(0, -9.81, 0)` before `computeForces` runs, and
`computeForces` uses the local constant `0.0001` as viscosity coefficient —
so two steps from the same particle state but arbitrary different written
settings (and times) produce identical force passes. -/
theorem update_force_pass_ignores_written_settings (t t' : ℝ) (P : SPHParams)
    (s s' : Settings) (lookup : V3 ℝ → List ℕ) (st : SPHState) :
    (gravitySchedule t s).gravity = ⟨0, -981/100, 0⟩ ∧
    updateForcePass t P s lookup st = updateForcePass t' P s' lookup st := by
  have hgrav : ∀ (u : ℝ) (w : Settings),
      (gravitySchedule u w).gravity = ⟨0, -981/100, 0⟩ := by
    intro u w
    rfl
  refine ⟨hgrav t s, ?_⟩
  unfold updateForcePass
  have h : (gravitySchedule t s).gravity = (gravitySchedule t' s').gravity := by
    rw [hgrav, hgrav]
  unfold computeForces computeForcesOne
  simp only [h]

/-! ## C4: the force-pass neighbor filter is `0.00001 < r² < h²`, not
`0 < r² < h²`

The source tests `r2 < _h2 && r2 > 0.00001f` and nudges only on the exact
`r2 == 0.f`; candidate pairs with `0 < r² ≤ 0.00001` fall through both
branches and are neither accumulated nor nudged. -/

/-- C4 (amended, full characterization of the candidate-pair body): for a
candidate pair `(i, j)` of the force pass, (a) `i = j` does nothing;
(b) when `0.00001 < r² < h²` the pressure / viscosity / cohesion /
curvature terms are accumulated and positions are untouched; (c) when
`r² = 0` exactly (and `i ≠ j`) the neighbor's position is nudged by
`(10⁻⁵, 10⁻⁵, 10⁻⁵)` and nothing is accumulated; (d) when
`0 < r² ≤ 0.00001` the pair is skipped entirely — neither accumulated nor
nudged. -/
theorem force_pair_filter_characterized
    (P : SPHParams) (vel nor : List (V3 ℝ)) (den pre : List ℝ)
    (i j : ℕ) (ps : List (V3 ℝ)) (acc : ForceAcc) :
    (i = j → forceStep P vel nor den pre i (ps, acc) j = (ps, acc)) ∧
    (i ≠ j →
      1/100000 < V3.normSq (ps.getD i default - ps.getD j default) →
      V3.normSq (ps.getD i default - ps.getD j default) < P.kernel.h2 →
      forceStep P vel nor den pre i (ps, acc) j =
        (ps,
          { force := acc.force -
              pressurePairTerm P (den.getD i 0) (pre.getD i 0) (den.getD j 0)
                (pre.getD j 0) (ps.getD i default - ps.getD j default)
            forceViscosity :=
              if den.getD j 0 > 1/10000 then
                acc.forceViscosity -
                  (P.kernel.viscosityLaplace
                      (Real.sqrt (V3.normSq (ps.getD i default - ps.getD j default))) /
                    den.getD j 0) • (vel.getD i default - vel.getD j default)
              else acc.forceViscosity
            forceCohesion := acc.forceCohesion +
              (2 * P.restDensity / (den.getD i 0 + den.getD j 0) *
                P.kernel.surfaceTension
                  (Real.sqrt (V3.normSq (ps.getD i default - ps.getD j default)))) •
                (ps.getD i default - ps.getD j default)
            forceCurvature := acc.forceCurvature +
              (2 * P.restDensity / (den.getD i 0 + den.getD j 0)) •
                (nor.getD i default - nor.getD j default) })) ∧
    (i ≠ j → V3.normSq (ps.getD i default - ps.getD j default) = 0 →
      forceStep P vel nor den pre i (ps, acc) j =
        (ps.set j (ps.getD j default + ⟨1/100000, 1/100000, 1/100000⟩), acc)) ∧
    (i ≠ j → 0 < V3.normSq (ps.getD i default - ps.getD j default) →
      V3.normSq (ps.getD i default - ps.getD j default) ≤ 1/100000 →
      forceStep P vel nor den pre i (ps, acc) j = (ps, acc)) := by
  refine ⟨?_, ?_, ?_, ?_⟩
  · intro h
    simp only [forceStep]
    rw [if_neg (by simp [h])]
  · intro hij hgt hlt
    simp only [forceStep]
    rw [if_pos hij, if_pos ⟨hlt, hgt⟩]
  · intro hij hz
    have hc1 : ¬ (V3.normSq (ps.getD i default - ps.getD j default) < P.kernel.h2 ∧
        V3.normSq (ps.getD i default - ps.getD j default) > 1/100000) := by
      rintro ⟨-, hgt⟩
      rw [hz] at hgt
      norm_num at hgt
    simp only [forceStep]
    rw [if_pos hij, if_neg hc1, if_pos hz]
  · intro hij hpos hle
    have hc1 : ¬ (V3.normSq (ps.getD i default - ps.getD j default) < P.kernel.h2 ∧
        V3.normSq (ps.getD i default - ps.getD j default) > 1/100000) := by
      rintro ⟨-, hgt⟩
      exact absurd hgt (not_lt.mpr hle)
    have hnz : ¬ V3.normSq (ps.getD i default - ps.getD j default) = 0 := ne_of_gt hpos
    simp only [forceStep]
    rw [if_pos hij, if_neg hc1, if_neg hnz]

/-- Witness for C4's amended characterization: the skipped case (d) at a
concrete pair with `r² = 1/250000 ≤ 0.00001`. -/
theorem force_pair_filter_characterized_witness :
    forceStep ⟨1, 1, 1, Kernel.init 1⟩ [0, 0] [0, 0] [1, 1] [1, 1] 0
        ([⟨0, 0, 0⟩, ⟨1/500, 0, 0⟩], ⟨0, 0, 0, 0⟩) 1 =
      ([⟨0, 0, 0⟩, ⟨1/500, 0, 0⟩], ⟨0, 0, 0, 0⟩) :=
  (force_pair_filter_characterized ⟨1, 1, 1, Kernel.init 1⟩ [0, 0] [0, 0] [1, 1] [1, 1]
      0 1 [⟨0, 0, 0⟩, ⟨1/500, 0, 0⟩] ⟨0, 0, 0, 0⟩).2.2.2
    (by norm_num)
    (by norm_num [V3.normSq])
    (by norm_num [V3.normSq])

/-- C4 (counterexample to the claim as stated): two particles at distance
`1/500` (so `0 < r² = 1/250000 < h² = 1`, i.e. inside the claim's filter
`0 < r² < h²`), unit densities and pressures, zero gravity.  A full
`computeForces` pass leaves the state completely unchanged — the pair is
*neither* force-accumulated (the forces stay zero although the pressure
term the claim requires is nonzero) *nor* nudged (positions unchanged) —
because the code's filter is `r² > 0.00001`, not `r² > 0`. -/
theorem force_pair_small_r2_skipped_counterexample :
    (0 < V3.normSq ((⟨0, 0, 0⟩ : V3 ℝ) - ⟨1/500, 0, 0⟩) ∧
      V3.normSq ((⟨0, 0, 0⟩ : V3 ℝ) - ⟨1/500, 0, 0⟩) < (Kernel.init 1).h2) ∧
    computeForces ⟨1, 1, 1, Kernel.init 1⟩ ⟨3, 5, 0⟩ (fun _ => [0, 1])
        ⟨[⟨0, 0, 0⟩, ⟨1/500, 0, 0⟩], [0, 0], [0, 0], [0, 0], [1, 1], [1, 1]⟩ =
      ⟨[⟨0, 0, 0⟩, ⟨1/500, 0, 0⟩], [0, 0], [0, 0], [0, 0], [1, 1], [1, 1]⟩ ∧
    pressurePairTerm ⟨1, 1, 1, Kernel.init 1⟩ 1 1 1 1
        ((⟨0, 0, 0⟩ : V3 ℝ) - ⟨1/500, 0, 0⟩) ≠ 0 := by
  refine ⟨⟨by norm_num [V3.normSq], by norm_num [V3.normSq, Kernel.init, sqr]⟩, ?_, ?_⟩
  · simp [computeForces, computeForcesOne, forceStep, List.range_succ, V3.normSq,
      Kernel.init, sqr, V3.ext_iff]
    norm_num
  · have hs : Real.sqrt (V3.normSq (⟨-1 / 500, 0, 0⟩ : V3 ℝ)) = 1/500 := by
      have h1 : V3.normSq (⟨-1 / 500, 0, 0⟩ : V3 ℝ) = (1/500) ^ 2 := by
        simp [V3.normSq]
        norm_num
      rw [h1, Real.sqrt_sq (by norm_num : (0:ℝ) ≤ 1/500)]
    simp only [pressurePairTerm, Kernel.spikyGrad, Kernel.init, sqr,
      V3.sub_def, V3.smul_def, V3.zero_def, ne_eq, V3.ext_iff, not_and_or]
    refine Or.inl ?_
    have hπ := Real.pi_pos
    field_simp
    rw [hs]
    norm_num

/-! ## C5: the force pass writes more than the force array

The `r² == 0` branch of the candidate lambda executes
`_positions[j] += Vector3f(1e-5f)` — a write to the *positions* array.  So
`computeForces` is positions-preserving only when no two distinct
candidate particles coincide exactly. -/

theorem sub_eq_zero_iff_v3 (a b : V3 ℝ) : a - b = 0 ↔ a = b := by
  cases a; cases b
  simp only [V3.sub_def, V3.zero_def, V3.ext_iff]
  constructor
  · rintro ⟨h1, h2, h3⟩
    exact ⟨by linarith, by linarith, by linarith⟩
  · rintro ⟨h1, h2, h3⟩
    exact ⟨by linarith, by linarith, by linarith⟩

theorem forceStep_positions_invariant (P : SPHParams) (vel nor : List (V3 ℝ))
    (den pre : List ℝ) (i j : ℕ) (s : List (V3 ℝ) × ForceAcc)
    (hstep : i = j ∨ s.1.getD i default ≠ s.1.getD j default) :
    (forceStep P vel nor den pre i s j).1 = s.1 := by
  rcases hstep with h | hne
  · simp only [forceStep]
    rw [if_neg (by simp [h])]
  · have hij : i ≠ j := by
      intro hh
      exact hne (by rw [hh])
    have hnz : ¬ V3.normSq (s.1.getD i default - s.1.getD j default) = 0 := by
      intro hz
      exact hne ((sub_eq_zero_iff_v3 _ _).mp ((V3.normSq_eq_zero_iff _).mp hz))
    simp only [forceStep]
    rw [if_pos hij]
    by_cases hc : V3.normSq (s.1.getD i default - s.1.getD j default) < P.kernel.h2 ∧
        V3.normSq (s.1.getD i default - s.1.getD j default) > 1/100000
    · rw [if_pos hc]
    · rw [if_neg hc, if_neg hnz]

theorem computeForcesOne_positions_invariant (P : SPHParams) (S : Settings)
    (lookup : V3 ℝ → List ℕ) (vel nor : List (V3 ℝ)) (den pre : List ℝ)
    (ps fs : List (V3 ℝ)) (i : ℕ)
    (h : ∀ j ∈ lookup (ps.getD i default), i ≠ j →
      ps.getD i default ≠ ps.getD j default) :
    (computeForcesOne P S lookup vel nor den pre ps fs i).1 = ps := by
  simp only [computeForcesOne]
  exact @List.foldlRecOn _ _ (fun x : List (V3 ℝ) × ForceAcc => x.1 = ps)
    (lookup (ps.getD i default)) (forceStep P vel nor den pre i)
    (ps, (⟨0, 0, 0, 0⟩ : ForceAcc)) rfl
    (fun b hb a ha => by
      show (forceStep P vel nor den pre i b a).1 = ps
      have hb' : b.1 = ps := hb
      rw [forceStep_positions_invariant P vel nor den pre i a b ?_]
      · exact hb'
      by_cases hia : i = a
      · exact Or.inl hia
      · refine Or.inr ?_
        rw [hb']
        exact h a ha hia)

/-- C5 (amended): `computeForces` writes the forces array and — only when
two distinct candidate particles coincide exactly (`r² == 0`) — also the
neighbor's position.  Under the hypothesis that no two distinct candidate
particles coincide, the positions, velocities, normals, densities and
pressures arrays are all unchanged by the force pass. -/
theorem computeForces_frame (P : SPHParams) (S : Settings) (lookup : V3 ℝ → List ℕ)
    (st : SPHState)
    (h : ∀ i j : ℕ, i < st.positions.length → j ∈ lookup (st.positions.getD i default) →
      i ≠ j → st.positions.getD i default ≠ st.positions.getD j default) :
    (computeForces P S lookup st).positions = st.positions ∧
    (computeForces P S lookup st).velocities = st.velocities ∧
    (computeForces P S lookup st).normals = st.normals ∧
    (computeForces P S lookup st).densities = st.densities ∧
    (computeForces P S lookup st).pressures = st.pressures := by
  refine ⟨?_, rfl, rfl, rfl, rfl⟩
  simp only [computeForces]
  exact @List.foldlRecOn _ _ (fun x : List (V3 ℝ) × List (V3 ℝ) => x.1 = st.positions)
    (List.range st.positions.length)
    (fun a i =>
      computeForcesOne P S lookup st.velocities st.normals st.densities st.pressures
        a.1 a.2 i)
    (st.positions, st.forces) rfl
    (fun b hb i hi => by
      show (computeForcesOne P S lookup st.velocities st.normals st.densities
        st.pressures b.1 b.2 i).1 = st.positions
      have hb' : b.1 = st.positions := hb
      rw [computeForcesOne_positions_invariant P S lookup st.velocities st.normals
        st.densities st.pressures b.1 b.2 i ?_]
      · exact hb'
      rw [hb']
      exact fun j hj hij => h i j (List.mem_range.mp hi) hj hij)

/-- Witness for C5's amended frame theorem at a concrete two-particle state
with distinct positions. -/
theorem computeForces_frame_witness :
    (computeForces ⟨1, 1, 1, Kernel.init 1⟩ ⟨3, 5, 0⟩ (fun _ => [0, 1])
        ⟨[⟨0, 0, 0⟩, ⟨1, 0, 0⟩], [0, 0], [0, 0], [0, 0], [1, 1], [1, 1]⟩).positions =
      [⟨0, 0, 0⟩, ⟨1, 0, 0⟩] ∧
    (computeForces ⟨1, 1, 1, Kernel.init 1⟩ ⟨3, 5, 0⟩ (fun _ => [0, 1])
        ⟨[⟨0, 0, 0⟩, ⟨1, 0, 0⟩], [0, 0], [0, 0], [0, 0], [1, 1], [1, 1]⟩).velocities =
      [0, 0] := by
  have h := computeForces_frame ⟨1, 1, 1, Kernel.init 1⟩ ⟨3, 5, 0⟩ (fun _ => [0, 1])
    ⟨[⟨0, 0, 0⟩, ⟨1, 0, 0⟩], [0, 0], [0, 0], [0, 0], [1, 1], [1, 1]⟩
    (by
      intro i j hi hj hij
      simp only [List.length_cons, List.length_nil] at hi
      interval_cases i <;> fin_cases hj <;>
        simp_all [V3.ext_iff])
  exact ⟨h.1, h.2.1⟩

/-- C5 (counterexample to the claim as stated): two exactly coincident
particles.  A single `computeForces` pass moves the second particle's
position by `(10⁻⁵, 10⁻⁵, 10⁻⁵)` — the positions array is *not* unchanged
by the force pass. -/
theorem computeForces_nudge_writes_positions_counterexample :
    (computeForces ⟨1, 1, 1, Kernel.init 1⟩ ⟨3, 5, 0⟩ (fun _ => [0, 1])
        ⟨[0, 0], [0, 0], [0, 0], [0, 0], [1, 1], [1, 1]⟩).positions =
      [0, ⟨1/100000, 1/100000, 1/100000⟩] ∧
    ([0, ⟨1/100000, 1/100000, 1/100000⟩] : List (V3 ℝ)) ≠ [0, 0] := by
  constructor
  · norm_num [computeForces, computeForcesOne, forceStep, List.range_succ,
      V3.normSq, Kernel.init, sqr, V3.ext_iff]
  · intro hc
    norm_num [V3.ext_iff] at hc

end SPH3d
